import Mathlib

/-!
Verification of the concurrent multi-provider LLM query engine and its repair
workflow.  The definitions below are a shallow embedding of the Python sources:

  * `scripts/run_model_queries.py` — `call_model_with_retry`,
    `query_single_model`, `query_models_parallel`, `prepare_repeated_questions`
    and the two per-provider locks (modelled as a step relation `SysStep`);
  * `scripts/rerun_failed_anthropic.py` — `extract_failed_queries`,
    `merge_results`;
  * `scripts/utils.py` — `ChatPerplexityDirect._domain_title` (here
    `domain_title`) and `ChatPerplexityDirect._extract_citations`
    (here `extract_citations`).

Python dicts are modelled as association lists in insertion order (Python 3.7+
dicts preserve insertion order), pandas data frames as lists of row records,
exceptions as `Except`, and thread interleavings as a small-step relation.
-/

/-! ### Association-list helpers (Python `dict` in insertion order) -/

/-- Lookup in an association list; `lookupA d k` models `d.get(k)`. -/
def lookupA {κ α : Type} [DecidableEq κ] : List (κ × α) → κ → Option α
  | [], _ => none
  | (k, v) :: rest, k' => if k' = k then some v else lookupA rest k'

/-- Update/insert in an association list, keeping the position of an existing
key and appending a fresh key at the end — exactly Python's `d[k] = v`
(and `d.setdefault(k, v)` when the function keeps an existing value). -/
def updA {κ α : Type} [DecidableEq κ] : List (κ × α) → κ → (Option α → α) → List (κ × α)
  | [], k, f => [(k, f none)]
  | (k', v) :: rest, k, f =>
    if k = k' then (k', f (some v)) :: rest else (k', v) :: updA rest k f

/-- Remove every entry with the given key (used for lock release). -/
def eraseKey {α : Type} (l : List (String × α)) (k : String) : List (String × α) :=
  l.filter (fun e => decide (e.1 ≠ k))

/-! ### Substring helpers (Python `in`, `str.lower`, `str.split`, …) -/

/-- Boolean test for `pat` occurring as a contiguous infix of a char list;
models Python's `pat in s`. -/
def infixOfCharList (pat : List Char) : List Char → Bool
  | [] => pat.isEmpty
  | c :: rest => pat.isPrefixOf (c :: rest) || infixOfCharList pat rest

/-- Python's `pat in s` on strings. -/
def containsStr (s pat : String) : Bool :=
  infixOfCharList pat.toList s.toList

/-- Case-insensitive substring test: the semantics of
`Series.str.contains(pat, case=False)` for a single literal pattern
(lower-casing both sides character by character). -/
def containsCI (s pat : String) : Bool :=
  infixOfCharList (pat.toList.map Char.toLower) (s.toList.map Char.toLower)

/-- Python's `str.removeprefix`. -/
def removePre (s p : String) : String :=
  if p.toList.isPrefixOf s.toList then String.mk (s.toList.drop p.toList.length) else s

/-- Fuel-bounded worker for `splitOnChars`; with fuel at least the input's
length it splits at every occurrence of the separator `s0 :: sep`, left to
right, exactly like Python's `str.split(sep)` for a non-empty separator. -/
def splitOnFuel (s0 : Char) (sep : List Char) : Nat → List Char → List (List Char)
  | 0, l => [l]
  | _ + 1, [] => [[]]
  | fuel + 1, c :: rest =>
    if (s0 :: sep).isPrefixOf (c :: rest) then
      [] :: splitOnFuel s0 sep fuel (rest.drop sep.length)
    else
      match splitOnFuel s0 sep fuel rest with
      | [] => [[c]]
      | h :: t => (c :: h) :: t

/-- Python's `str.split(sep)` on char lists, for a non-empty separator
`s0 :: sep`. -/
def splitOnChars (s0 : Char) (sep : List Char) (l : List Char) : List (List Char) :=
  splitOnFuel s0 sep l.length l

/-! ### `urlparse(url).netloc` (modelled for standard absolute URLs) -/

/-- Take characters of the network location up to the first `/`, `?` or `#`,
as `urllib.parse.urlparse` does after the `//`. -/
def takeNetlocChars : List Char → List Char
  | [] => []
  | c :: rest => if c = '/' ∨ c = '?' ∨ c = '#' then [] else c :: takeNetlocChars rest

/-- Everything after the first occurrence of `p`, if `p` occurs. -/
def afterFirst (p : List Char) : List Char → Option (List Char)
  | [] => if p.isEmpty then some [] else none
  | c :: rest =>
    if p.isPrefixOf (c :: rest) then some ((c :: rest).drop p.length)
    else afterFirst p rest

/-- Modelled from `urllib.parse.urlparse(url).netloc` for standard URLs:
the host part follows the first `scheme://` (or a leading `//`) and extends to
the next `/`, `?` or `#`; a URL with no `//` has an empty netloc. -/
def netloc (url : String) : String :=
  match afterFirst "://".toList url.toList with
  | some rest => String.mk (takeNetlocChars rest)
  | none =>
    if ['/', '/'].isPrefixOf url.toList then String.mk (takeNetlocChars (url.toList.drop 2))
    else ""

/-! ### `scripts/utils.py` — `_domain_title` and `_extract_citations` -/

/-- `ChatPerplexityDirect._domain_title`: nice human-readable domain or
special-case titles (Wikipedia, YouTube).  Mirrors the Python
`urlparse(url).netloc.removeprefix("www.")` + substring checks +
`url.split("/wiki/")[1].replace("_", " ")`. -/
def domain_title (url : String) : String :=
  let domain := removePre (netloc url) "www."
  if containsStr domain "youtube.com" || containsStr domain "youtu.be" then
    "YouTube Video"
  else if containsStr domain "wikipedia.org" && containsStr url "/wiki/" then
    match splitOnChars '/' (String.toList "wiki/") url.toList with
    | _ :: second :: _ =>
      "Wikipedia: " ++ String.mk (second.map (fun c => if c = '_' then ' ' else c))
    | _ => url
  else domain

/-- Uniform citation shape emitted by the Perplexity adapter. -/
structure Citation where
  url : String
  title : String
  text : String
deriving DecidableEq, Repr

/-- Parsed `function.arguments` of a `link` tool call (absence of the whole
record models a `KeyError`/`JSONDecodeError` in `json.loads`). -/
structure ToolCallArgs where
  url : Option String
  title : Option String
  text : Option String
deriving DecidableEq, Repr

/-- One entry of `message.tool_calls`. -/
structure ToolCall where
  ty : String
  arguments : Option ToolCallArgs
deriving DecidableEq, Repr

/-- One entry of the legacy `message.links` member. -/
structure LinkObj where
  url : Option String
  title : Option String
  text : Option String
deriving DecidableEq, Repr

/-- The parts of one `choices[i].message` that `_extract_citations` reads. -/
structure PMessage where
  tool_calls : List ToolCall
  links : List LinkObj
deriving DecidableEq, Repr

/-- One entry of `choices`. -/
structure PChoice where
  message : PMessage
deriving DecidableEq, Repr

/-- The parts of the Perplexity response JSON that `_extract_citations`
reads: the simple top-level `citations` list plus `choices`. -/
structure PRespJson where
  citations : List String
  choices : List PChoice
deriving DecidableEq, Repr

/-- `ChatPerplexityDirect._extract_citations`: collapses all the citation
formats into one list of `Citation` records, in the source's append order
(top-level citations first, then per choice: `link` tool calls, then legacy
`links`).  `if url:` in Python skips both a missing and an empty url. -/
def extract_citations (r : PRespJson) : List Citation :=
  (r.citations.map fun url => ⟨url, domain_title url, ""⟩)
  ++ r.choices.flatMap (fun ch =>
      (ch.message.tool_calls.filterMap (fun tc =>
        if tc.ty ≠ "link" then none
        else
          match tc.arguments with
          | none => none
          | some args =>
            match args.url with
            | none => none
            | some url =>
              if url = "" then none
              else some ⟨url, args.title.getD (domain_title url), args.text.getD ""⟩))
      ++ ch.message.links.map (fun lk =>
          let url := (lk.url.getD "")
          ⟨url, lk.title.getD (domain_title url), lk.text.getD ""⟩))

/-! ### Retry policy — `call_model_with_retry`
`@retry(wait=wait_exponential(min=2, max=60), stop=stop_after_attempt(5))`.
Attempts are numbered from 1; `tenacity.wait_exponential` with the default
multiplier 1 and base 2 computes `exp_base ** (attempt_number - 1)` and
clamps it to `[min, max]`, and the wait after the N-th failed attempt is
computed while `attempt_number` is still N (before the next-attempt counter
increment), so that wait is `max(2, min(2 ** (N - 1), 60))`;
`stop_after_attempt 5` raises a `RetryError` after the fifth failed attempt,
with no further sleep.  The adapter call is a function from the attempt
number to the attempt's outcome; the driver also returns the list of waits
it performed. -/

/-- `tenacity.wait_exponential(min=mn, max=mx)` after `attempt_number`
completed attempts (multiplier 1, base 2): the exponent is
`attempt_number - 1`, clamped to the `[mn, mx]` band. -/
def wait_exponential (mn mx attempt_number : Nat) : Nat :=
  max mn (min (2 ^ (attempt_number - 1)) mx)

/-- The retry loop: `attempt` is the current attempt number, the last
argument the number of attempts still allowed. -/
def retryGo (f : Nat → Except String String) : Nat → Nat → Except String String × List Nat
  | _, 0 => (Except.error "RetryError", [])
  | attempt, remaining + 1 =>
    match f attempt with
    | Except.ok c => (Except.ok c, [])
    | Except.error e =>
      if remaining = 0 then (Except.error ("RetryError: " ++ e), [])
      else
        let r := retryGo f (attempt + 1) remaining
        (r.1, wait_exponential 2 60 attempt :: r.2)

/-- `call_model_with_retry`: up to 5 attempts with exponential backoff. -/
def call_model_with_retry (f : Nat → Except String String) : Except String String × List Nat :=
  retryGo f 1 5

/-! ### `query_single_model` and `query_models_parallel` -/

/-- Token usage statistics extracted from a provider response. -/
structure Usage where
  prompt_tokens : Option Nat
  completion_tokens : Option Nat
  total_tokens : Option Nat
deriving DecidableEq, Repr

/-- The Chatlas-style response wrapper a provider call returns (its fields
are the ones `query_models_parallel` reads off `full_response`). -/
structure ModelResponse where
  content : String
  model : String
  created_at : String
  usage : Option Usage
deriving DecidableEq, Repr

/-- The serializable `response_data` dict stored in the raw store. -/
structure RespData where
  content : String
  model : String
  created_at : String
  usage : Option Usage
deriving DecidableEq, Repr

/-- Build `response_data` from a full response (the wrapper always has the
`content`/`model`/`created_at` attributes in this model, so the `getattr`
defaults of the source never fire). -/
def mkRespData (r : ModelResponse) : RespData :=
  { content := r.content, model := r.model, created_at := r.created_at, usage := r.usage }

/-- An initialized adapter: the net outcome of `call_model_with_retry` on a
question — either a response or the raised (retry-exhausted) exception. -/
abbrev CallFn := String → Except String ModelResponse

/-- `model_instances.get(model_key)`: `none` models an instance whose
initialization failed (stored as Python `None`). -/
abbrev Instances := String → Option CallFn

/-- `query_single_model(question, model_key, instance)`: short-circuits an
uninitialized instance to the fixed content, otherwise performs the (locked,
retried) call and converts any raised exception `e` into the content string
`"Error: " ++ e`.  The per-provider locks have no effect on the returned
data; they are modelled separately by `SysStep`. -/
def query_single_model (question : String) (model_key : String) (inst? : Option CallFn) :
    String × String × Option ModelResponse :=
  match inst? with
  | none => (model_key, "Initialization failed", none)
  | some call =>
    match call question with
    | Except.ok resp => (model_key, resp.content, some resp)
    | Except.error e => (model_key, "Error: " ++ e, none)

/-- One input row of the questions data frame (`query_id` is `row.get
('query_id', 0)`, so a frame without that column is modelled with 0). -/
structure QRow where
  index : Int
  question : String
  category : String
  subcategory1 : String
  subcategory2 : String
  query_id : Int
deriving DecidableEq, Repr

/-- One accumulator row of `responses_dict` (the `meta_initialized` helper
flag of the source is represented by the key's presence in the dict; the
source removes the flag before building the data frame). -/
structure Entry where
  index : Int
  question : String
  category : String
  subcategory1 : String
  subcategory2 : String
  query_id : Int
  responses : List (String × String)
deriving DecidableEq, Repr

/-- Metadata initialization of a fresh accumulator row. -/
def mkEntry (r : QRow) : Entry :=
  ⟨r.index, r.question, r.category, r.subcategory1, r.subcategory2, r.query_id, []⟩

/-- The `defaultdict(dict)` default: an entry with no metadata (never
reached on the futures the engine actually produces). -/
def emptyEntry : Entry := ⟨0, "", "", "", "", 0, []⟩

/-- The raw metadata store `raw[index][query_id][provider] → response_data`. -/
abbrev Raw := List (Int × List (Int × List (String × RespData)))

/-- `raw_responses.setdefault(idx, {}).setdefault(query_id, {})`. -/
def scaffoldRaw (raw : Raw) (idx qid : Int) : Raw :=
  updA raw idx (fun o => updA (o.getD []) qid (fun i => i.getD []))

/-- `raw_responses[idx][query_id][model_key] = response_data`. -/
def rawStore (raw : Raw) (idx qid : Int) (m : String) (d : RespData) : Raw :=
  updA raw idx (fun o => updA (o.getD []) qid (fun i => updA (i.getD []) m (fun _ => d)))

/-- Three-level lookup into the raw store. -/
def rawLookup3 (raw : Raw) (idx qid : Int) (m : String) : Option RespData :=
  (lookupA raw idx).bind (fun i => (lookupA i qid).bind (fun j => lookupA j m))

/-- One submitted future together with the loop variables the source keeps
alongside it (`entry_key`, `model_key`); `result` is the triple
`query_single_model` returns. -/
structure FutureE where
  key : Int × Int
  model_key : String
  result : String × String × Option ModelResponse
deriving DecidableEq, Repr

/-- State after the submission loop of `query_models_parallel`. -/
structure P1State where
  rd : List ((Int × Int) × Entry)
  raw : Option Raw
  futures : List FutureE
deriving Repr

/-- The body of the submission loop for one input row: initialize the
accumulator entry on first sight of `(index, query_id)`, scaffold the raw
store, and submit one future per requested model. -/
def phase1Step (models : List String) (inst : Instances) (st : P1State) (row : QRow) : P1State :=
  let key := (row.index, row.query_id)
  let rd :=
    match lookupA st.rd key with
    | some _ => st.rd
    | none => st.rd ++ [(key, mkEntry row)]
  let raw := st.raw.map (fun r => scaffoldRaw r row.index row.query_id)
  let futures := st.futures ++ models.map (fun m =>
    { key := key, model_key := m,
      result := query_single_model row.question m (inst m) : FutureE })
  ⟨rd, raw, futures⟩

/-- The whole submission loop. -/
def phase1Run (models : List String) (inst : Instances) (df : List QRow) (store : Bool) : P1State :=
  df.foldl (phase1Step models inst) ⟨[], if store then some [] else none, []⟩

/-- The body of the collection loop for one completed future: write the
content into the row's `{model_key}_response` cell and, when a full response
is present (and raw storage is on), record it in the raw store. -/
def phase2Step (st : List ((Int × Int) × Entry) × Option Raw) (f : FutureE) :
    List ((Int × Int) × Entry) × Option Raw :=
  let content := f.result.2.1
  let full := f.result.2.2
  let rd := updA st.1 f.key (fun o =>
    let e := o.getD emptyEntry
    { e with responses := updA e.responses f.model_key (fun _ => content) })
  let raw :=
    match st.2, full with
    | some r, some fr => some (rawStore r f.key.1 f.key.2 f.model_key (mkRespData fr))
    | _, _ => st.2
  (rd, raw)

/-- `query_models_parallel(questions_df, models_to_run, store_full_response)`:
submission loop, then collection loop over the futures, then the accumulated
rows in key-insertion order (the completion interleaving of the thread pool
does not affect these results: each future's write is keyed by its own
`(entry_key, model_key)`, and the source drains the full futures list). -/
def query_models_parallel (df : List QRow) (models : List String) (inst : Instances)
    (store : Bool) : List Entry × Option Raw :=
  let p1 := phase1Run models inst df store
  let fin := p1.futures.foldl phase2Step (p1.rd, p1.raw)
  (fin.1.map (·.2), fin.2)

/-! ### `prepare_repeated_questions` -/

/-- `groupby('index').cumcount() + 1` on a row list: each row's `query_id`
becomes one plus the number of earlier rows with the same `index` value;
`counts` carries the number of occurrences seen so far per index. -/
def assignQueryIds : List QRow → List (Int × Nat) → List QRow
  | [], _ => []
  | r :: rest, counts =>
    let c := (lookupA counts r.index).getD 0
    { r with query_id := Int.ofNat (c + 1) } ::
      assignQueryIds rest (updA counts r.index (fun _ => c + 1))

/-- `prepare_repeated_questions(questions_df, n_repeats)`: a no-op for
`n_repeats ≤ 1`; otherwise repeat every row `n_repeats` times consecutively
(`df.loc[df.index.repeat(n)]`) and assign `query_id` by group cumulative
count.  The source's final column reordering only permutes columns and is
not visible in this row-record model. -/
def prepare_repeated_questions (df : List QRow) (n_repeats : Int) : List QRow :=
  if n_repeats ≤ 1 then df
  else assignQueryIds (df.flatMap (fun r => List.replicate n_repeats.toNat r)) []

/-! ### `rerun_failed_anthropic.py` — `extract_failed_queries`, `merge_results` -/

/-- One row of a results CSV: the `(index, query_id)` key plus all the other
columns as named cells. -/
structure CRow where
  index : Int
  query_id : Int
  cells : List (String × String)
deriving DecidableEq, Repr

/-- The error mask of `extract_failed_queries`: the regex
`Error|RateLimitError|APIStatusError|RetryError` with `case=False` matches a
cell exactly when one of the four literal alternatives occurs in it as a
case-insensitive substring; `na=False` maps a missing cell to no match. -/
def error_mask_cell (s : String) : Bool :=
  containsCI s "Error" || containsCI s "RateLimitError" ||
    containsCI s "APIStatusError" || containsCI s "RetryError"

/-- Row selection of `extract_failed_queries(input_csv, model)`: keep the rows
whose `{model}_response` cell matches the error mask. -/
def extract_failed_queries (df : List CRow) (model : String) : List CRow :=
  df.filter (fun r =>
    match lookupA r.cells (model ++ "_response") with
    | none => false
    | some s => error_mask_cell s)

/-- One iteration of the merge loop of `merge_results`: set the response
cell of every original row whose `(index, query_id)` equals the new row's
key — matching by key equality, never by row position. -/
def updateRowCells (response_column : String) (nrow orow : CRow) : CRow :=
  { orow with cells := updA orow.cells response_column (fun _ => (lookupA nrow.cells response_column).getD "") }

/-- Apply `updateRowCells` to the original rows the mask selects. -/
def mergePass (response_column : String) (merged : List CRow) (nrow : CRow) : List CRow :=
  merged.map (fun orow =>
    if orow.index = nrow.index ∧ orow.query_id = nrow.query_id then
      updateRowCells response_column nrow orow
    else orow)

/-- `merge_results(original_csv, new_results_csv, model)`: for every row of
the new results in order, update the matching original rows' response cells
(`merged_df.loc[mask, response_column] = row[response_column]`). -/
def merge_results (original newResults : List CRow) (response_column : String) : List CRow :=
  newResults.foldl (mergePass response_column) original

/-! ### Admission control — the two provider locks as a step relation
`query_single_model` serializes GitHub calls with `github_lock` and Anthropic
calls with `anthropic_lock` plus a 1.2-second sleep inside the critical
section.  Each task runs the action sequence below; an interleaving is a
sequence of `SysStep` steps, where `acquire` blocks while the lock is held. -/

/-- One atomic action of a task thread. -/
inductive PAction where
  | acquire (lock : String)
  | sleepA (duration : ℚ)
  | callA
  | releaseA (lock : String)
deriving DecidableEq, Repr

/-- The action sequence `query_single_model` performs for a given provider:
GitHub and Anthropic calls run under their provider lock, Anthropic
additionally sleeps 1.2 seconds after acquiring and before calling; every
other provider just calls. -/
def taskProgram (model_key : String) : List PAction :=
  if model_key = "github" then
    [PAction.acquire "github", PAction.callA, PAction.releaseA "github"]
  else if model_key = "anthropic" then
    [PAction.acquire "anthropic", PAction.sleepA (6 / 5), PAction.callA,
      PAction.releaseA "anthropic"]
  else
    [PAction.callA]

/-- System state: per task its provider and remaining actions, plus the
owner of each currently-held lock. -/
structure SysState where
  tasks : List (String × List PAction)
  owner : List (String × Nat)
deriving DecidableEq, Repr

/-- Initial state: one task per scheduled provider call, no lock held. -/
def initSys (models : List String) : SysState :=
  ⟨models.map (fun m => (m, taskProgram m)), []⟩

/-- Small-step interleaving semantics of the task threads. -/
inductive SysStep : SysState → SysState → Prop where
  | acq (s : SysState) (i : Nat) (m L : String) (rest : List PAction)
      (htask : s.tasks.get? i = some (m, PAction.acquire L :: rest))
      (hfree : lookupA s.owner L = none) :
      SysStep s ⟨s.tasks.set i (m, rest), (L, i) :: s.owner⟩
  | slp (s : SysState) (i : Nat) (m : String) (q : ℚ) (rest : List PAction)
      (htask : s.tasks.get? i = some (m, PAction.sleepA q :: rest)) :
      SysStep s ⟨s.tasks.set i (m, rest), s.owner⟩
  | cal (s : SysState) (i : Nat) (m : String) (rest : List PAction)
      (htask : s.tasks.get? i = some (m, PAction.callA :: rest)) :
      SysStep s ⟨s.tasks.set i (m, rest), s.owner⟩
  | rel (s : SysState) (i : Nat) (m L : String) (rest : List PAction)
      (htask : s.tasks.get? i = some (m, PAction.releaseA L :: rest))
      (hown : lookupA s.owner L = some i) :
      SysStep s ⟨s.tasks.set i (m, rest), eraseKey s.owner L⟩

/-- Reachability from the initial state of a given task multiset. -/
def Reach (models : List String) (s : SysState) : Prop :=
  Relation.ReflTransGen SysStep (initSys models) s

/-- The two strictly-serialized providers. -/
def serializedP (m : String) : Prop := m = "github" ∨ m = "anthropic"

/-! ### Predicates used to state the engine's invariants -/

/-- Two accumulator rows carry the same question metadata. -/
def metaEq (e e' : Entry) : Prop :=
  e.index = e'.index ∧ e.question = e'.question ∧ e.category = e'.category ∧
    e.subcategory1 = e'.subcategory1 ∧ e.subcategory2 = e'.subcategory2 ∧
    e.query_id = e'.query_id

/-- Invariants of the submission loop of `query_models_parallel` after
processing `processed` input rows: accumulator keys are distinct and are
exactly the processed keys, each accumulator entry is bound to its own key
with still-empty responses, every submitted future belongs to a processed
row and a requested model and carries that task's `query_single_model`
result, and every (key, model) pair has a submitted future. -/
def P1Good (models : List String) (inst : Instances) (processed : List QRow)
    (st : P1State) : Prop :=
  (st.rd.map Prod.fst).Nodup ∧
  (∀ k : Int × Int, k ∈ st.rd.map Prod.fst ↔
    k ∈ processed.map (fun r => (r.index, r.query_id))) ∧
  (∀ pr ∈ st.rd, pr.2.index = pr.1.1 ∧ pr.2.query_id = pr.1.2 ∧ pr.2.responses = []) ∧
  (∀ f ∈ st.futures, ∃ row ∈ processed, f.key = (row.index, row.query_id) ∧
    f.model_key ∈ models ∧
    f.result = query_single_model row.question f.model_key (inst f.model_key)) ∧
  (∀ k ∈ st.rd.map Prod.fst, ∀ m ∈ models,
    ∃ f ∈ st.futures, f.key = k ∧ f.model_key = m)

/-- Two accumulator rows agree on the metadata and on every response cell
except possibly provider `p`'s. -/
def respAgree (p : String) (e e' : Entry) : Prop :=
  metaEq e e' ∧ ∀ m, m ≠ p → lookupA e.responses m = lookupA e'.responses m

/-- Future lists of two runs that may differ only in provider `p`'s results. -/
def futAgree (p : String) (f f' : FutureE) : Prop :=
  f.key = f'.key ∧ f.model_key = f'.model_key ∧
    (f.model_key ≠ p → f.result = f'.result)

/-- Every leaf dict of the raw store is empty. -/
def rawEmptyLeaves (raw : Raw) : Prop :=
  ∀ (idx qid : Int) (m : String), rawLookup3 raw idx qid m = none

/-- The raw store has its `raw[idx][qid]` scaffolding dict. -/
def rawScaffolded (raw : Raw) (idx qid : Int) : Prop :=
  ∃ inner, lookupA raw idx = some inner ∧ (lookupA inner qid).isSome

/-! ## General lemmas about the association-list operations -/

theorem lookupA_updA_self {κ α : Type} [DecidableEq κ] (l : List (κ × α)) (k : κ)
    (f : Option α → α) : lookupA (updA l k f) k = some (f (lookupA l k)) := by
  induction l with
  | nil => simp [updA, lookupA]
  | cons hd tl ih =>
    obtain ⟨k1, v⟩ := hd
    by_cases h : k = k1
    · subst h; simp [updA, lookupA]
    · simp [updA, lookupA, h, Ne.symm h, ih]

theorem lookupA_updA_ne {κ α : Type} [DecidableEq κ] (l : List (κ × α)) (k k' : κ)
    (f : Option α → α) (h : k' ≠ k) : lookupA (updA l k f) k' = lookupA l k' := by
  induction l with
  | nil => simp [updA, lookupA, h]
  | cons hd tl ih =>
    obtain ⟨k1, v⟩ := hd
    by_cases h1 : k = k1
    · subst h1; simp [updA, lookupA, h]
    · by_cases h2 : k' = k1 <;> simp [updA, lookupA, h1, h2, ih]

theorem lookupA_eq_none_iff {κ α : Type} [DecidableEq κ] (l : List (κ × α)) (k : κ) :
    lookupA l k = none ↔ k ∉ l.map Prod.fst := by
  induction l with
  | nil => simp [lookupA]
  | cons hd tl ih =>
    obtain ⟨k1, v⟩ := hd
    by_cases h : k = k1 <;> simp [lookupA, h, ih]

theorem lookupA_isSome_iff {κ α : Type} [DecidableEq κ] (l : List (κ × α)) (k : κ) :
    (lookupA l k).isSome ↔ k ∈ l.map Prod.fst := by
  rw [← Decidable.not_not (p := k ∈ l.map Prod.fst), ← lookupA_eq_none_iff]
  cases lookupA l k <;> simp

theorem updA_map_fst_of_some {κ α : Type} [DecidableEq κ] (l : List (κ × α)) (k : κ)
    (f : Option α → α) (h : (lookupA l k).isSome) :
    (updA l k f).map Prod.fst = l.map Prod.fst := by
  induction l with
  | nil => simp [lookupA] at h
  | cons hd tl ih =>
    obtain ⟨k1, v⟩ := hd
    by_cases h1 : k = k1
    · subst h1; simp [updA]
    · simp only [lookupA, if_neg (fun hh => h1 (by simpa using hh))] at h
      · simp [updA, h1, ih h]

theorem updA_map_fst_of_none {κ α : Type} [DecidableEq κ] (l : List (κ × α)) (k : κ)
    (f : Option α → α) (h : lookupA l k = none) :
    (updA l k f).map Prod.fst = l.map Prod.fst ++ [k] := by
  induction l with
  | nil => simp [updA]
  | cons hd tl ih =>
    obtain ⟨k1, v⟩ := hd
    by_cases h1 : k = k1
    · subst h1; simp [lookupA] at h
    · simp only [lookupA, if_neg (fun hh => h1 (by simpa using hh))] at h
      simp [updA, h1, ih h]

theorem updA_updA_const {κ α : Type} [DecidableEq κ] (l : List (κ × α)) (k : κ) (a b : α) :
    updA (updA l k (fun _ => a)) k (fun _ => b) = updA l k (fun _ => b) := by
  induction l with
  | nil => simp [updA]
  | cons hd tl ih =>
    obtain ⟨k1, v⟩ := hd
    by_cases h : k = k1 <;> simp [updA, h, ih]

theorem lookupA_of_mem_nodup {κ α : Type} [DecidableEq κ] (l : List (κ × α)) (k : κ) (a : α)
    (hmem : (k, a) ∈ l) (hnd : (l.map Prod.fst).Nodup) : lookupA l k = some a := by
  induction l with
  | nil => simp at hmem
  | cons hd tl ih =>
    obtain ⟨k1, v⟩ := hd
    simp only [List.map_cons, List.nodup_cons] at hnd
    rcases List.mem_cons.1 hmem with h | h
    · obtain ⟨h1, h2⟩ := Prod.mk.injEq .. ▸ h
      injection h with h'
      simp_all [lookupA]
    · have hk : k ≠ k1 := by
        intro hk; subst hk
        exact hnd.1 (List.mem_map.2 ⟨(k, a), h, rfl⟩)
      simp [lookupA, hk, ih h hnd.2]

/-! ## Claim C3 — retry policy -/

theorem retryGo_congr (g h : Nat → Except String String) :
    ∀ (rem attempt : Nat), (∀ k, attempt ≤ k → k < attempt + rem → g k = h k) →
      retryGo g attempt rem = retryGo h attempt rem := by
  intro rem
  induction rem with
  | zero => intro attempt _; rfl
  | succ n ih =>
    intro attempt hagree
    have hga : g attempt = h attempt := hagree attempt le_rfl (by omega)
    simp only [retryGo, hga]
    cases h attempt with
    | ok c => rfl
    | error e =>
      by_cases hn : n = 0
      · subst hn; simp
      · have hrec := ih (attempt + 1) (fun k h1 h2 => hagree k (by omega) (by omega))
        simp [hn, hrec]

/-- Claim C3: `call_model_with_retry` retries a raising adapter call up to a
ceiling of 5 attempts (it never consults the outcome of any later attempt),
with exponential backoff whose per-wait delay is at least 2 and at most 60
time-units; a call failing on attempts 1–4 and succeeding on attempt 5
yields the success outcome carrying the 5th attempt's content, with the four
performed waits being 2, 2, 4, 8 — monotonically non-decreasing (the first
two waits sit at the 2-unit minimum clamp) and below the 60-unit cap. -/
theorem c3_retry_policy (f : Nat → Except String String) (c e1 e2 e3 e4 : String)
    (h1 : f 1 = Except.error e1) (h2 : f 2 = Except.error e2)
    (h3 : f 3 = Except.error e3) (h4 : f 4 = Except.error e4)
    (h5 : f 5 = Except.ok c) :
    call_model_with_retry f = (Except.ok c, [2, 2, 4, 8]) ∧
    List.Chain' (· ≤ ·) (call_model_with_retry f).2 ∧
    (∀ w ∈ (call_model_with_retry f).2, 2 ≤ w ∧ w ≤ 60) ∧
    (∀ n : Nat, 2 ≤ wait_exponential 2 60 n ∧ wait_exponential 2 60 n ≤ 60) ∧
    (∀ g h : Nat → Except String String, (∀ k, 1 ≤ k → k ≤ 5 → g k = h k) →
      call_model_with_retry g = call_model_with_retry h) := by
  have hrun : call_model_with_retry f = (Except.ok c, [2, 2, 4, 8]) := by
    simp [call_model_with_retry, retryGo, h1, h2, h3, h4, h5, wait_exponential]
  refine ⟨hrun, ?_, ?_, ?_, ?_⟩
  · rw [hrun]
    show List.Chain' (· ≤ ·) [2, 2, 4, 8]
    refine List.chain'_cons.2 ⟨by norm_num, List.chain'_cons.2 ⟨by norm_num, ?_⟩⟩
    exact List.chain'_cons.2 ⟨by norm_num, List.chain'_singleton 8⟩
  · rw [hrun]; show ∀ w ∈ [2, 2, 4, 8], 2 ≤ w ∧ w ≤ 60; decide
  · intro n
    unfold wait_exponential
    constructor
    · exact le_max_left _ _
    · have h2n : 1 ≤ 2 ^ (n - 1) := Nat.one_le_two_pow
      simp only [max_le_iff]
      omega
  · intro g h hagree
    unfold call_model_with_retry
    exact retryGo_congr g h 5 1 (fun k hk1 hk2 => hagree k hk1 (by omega))

/-- Witness for C3 at a concrete adapter that fails four times and succeeds
on the fifth attempt. -/
theorem c3_retry_policy_witness :
    call_model_with_retry
        (fun k => if k = 5 then Except.ok "answer" else Except.error "boom")
      = (Except.ok "answer", [2, 2, 4, 8]) :=
  (c3_retry_policy (fun k => if k = 5 then Except.ok "answer" else Except.error "boom")
    "answer" "boom" "boom" "boom" "boom" rfl rfl rfl rfl rfl).1

/-! ## Claim C6 — repetition expander -/

theorem assignQueryIds_congr :
    ∀ (rows : List QRow) (c1 c2 : List (Int × Nat)),
      (∀ i, i ∈ rows.map (fun r => r.index) → lookupA c1 i = lookupA c2 i) →
      assignQueryIds rows c1 = assignQueryIds rows c2 := by
  intro rows
  induction rows with
  | nil => intro c1 c2 _; rfl
  | cons r rest ih =>
    intro c1 c2 hag
    have hr : lookupA c1 r.index = lookupA c2 r.index := hag r.index (by simp)
    simp only [assignQueryIds, hr]
    congr 1
    apply ih
    intro i hi
    by_cases hir : i = r.index
    · subst hir
      rw [lookupA_updA_self, lookupA_updA_self]
    · rw [lookupA_updA_ne _ _ _ _ hir, lookupA_updA_ne _ _ _ _ hir]
      exact hag i (by simp [hi])

theorem assignQueryIds_replicate (r : QRow) (tail : List QRow) :
    ∀ (m : Nat) (counts : List (Int × Nat)) (c : Nat),
      (lookupA counts r.index).getD 0 = c →
      assignQueryIds (List.replicate m r ++ tail) counts =
        (List.range m).map (fun k => { r with query_id := Int.ofNat (c + k + 1) }) ++
          assignQueryIds tail
            (if m = 0 then counts else updA counts r.index (fun _ => c + m)) := by
  intro m
  induction m with
  | zero => intro counts c _; simp
  | succ n ih =>
    intro counts c hc
    have step : assignQueryIds (List.replicate (n + 1) r ++ tail) counts =
        { r with query_id := Int.ofNat (c + 1) } ::
          assignQueryIds (List.replicate n r ++ tail)
            (updA counts r.index (fun _ => c + 1)) := by
      simp only [List.replicate_succ, List.cons_append, assignQueryIds, hc, List.append_eq]
    rw [step, ih (updA counts r.index (fun _ => c + 1)) (c + 1)
      (by rw [lookupA_updA_self]; rfl)]
    have hblock : { r with query_id := Int.ofNat (c + 1) } ::
        (List.range n).map (fun k => { r with query_id := Int.ofNat (c + 1 + k + 1) }) =
        (List.range (n + 1)).map (fun k => { r with query_id := Int.ofNat (c + k + 1) }) := by
      rw [List.range_succ_eq_map, List.map_cons, List.map_map]
      congr 1
      apply List.map_congr_left
      intro k _
      simp only [Function.comp_apply]
      congr 2
      omega
    have hcounts : (if n = 0 then updA counts r.index (fun _ => c + 1)
        else updA (updA counts r.index (fun _ => c + 1)) r.index (fun _ => c + 1 + n)) =
        updA counts r.index (fun _ => c + (n + 1)) := by
      by_cases hn0 : n = 0
      · subst hn0; simp
      · rw [if_neg hn0, updA_updA_const]
        congr 1
        funext o
        omega
    rw [← hblock, hcounts]
    simp

theorem assignQueryIds_flatMap (n : Nat) (hn : 0 < n) :
    ∀ (df : List QRow) (counts : List (Int × Nat)),
      (df.map (fun r => r.index)).Nodup →
      (∀ r ∈ df, lookupA counts r.index = none) →
      assignQueryIds (df.flatMap (fun r => List.replicate n r)) counts =
        df.flatMap (fun r => (List.range n).map
          (fun k => { r with query_id := Int.ofNat (k + 1) })) := by
  intro df
  induction df with
  | nil => intro counts _ _; rfl
  | cons r rest ih =>
    intro counts hnd hnone
    rw [List.flatMap_cons, List.flatMap_cons]
    have hc : (lookupA counts r.index).getD 0 = 0 := by
      rw [hnone r (by simp)]
      rfl
    rw [assignQueryIds_replicate r _ n counts 0 hc, if_neg (by omega)]
    simp only [List.map_cons, List.nodup_cons] at hnd
    congr 1
    · apply List.map_congr_left
      intro k _
      congr 2
      omega
    · rw [assignQueryIds_congr _ _ counts ?agree]
      · exact ih counts hnd.2 (fun r' hr' => hnone r' (by simp [hr']))
      case agree =>
        intro i hi
        have hi' : i ∈ rest.map (fun r' => r'.index) := by
          simp only [List.mem_map, List.mem_flatMap] at hi ⊢
          obtain ⟨x, ⟨r', hr', hx⟩, hxi⟩ := hi
          exact ⟨r', hr', by rw [← hxi, List.eq_of_mem_replicate hx]⟩
        have : i ≠ r.index := by
          intro hir
          exact hnd.1 (hir ▸ hi')
        rw [lookupA_updA_ne _ _ _ _ this]

theorem prepare_repeated_questions_eq (df : List QRow) (n : Int) (hn : 2 ≤ n)
    (hnd : (df.map (fun r => r.index)).Nodup) :
    prepare_repeated_questions df n =
      df.flatMap (fun r => (List.range n.toNat).map
        (fun k => { r with query_id := Int.ofNat (k + 1) })) := by
  rw [prepare_repeated_questions, if_neg (by omega)]
  exact assignQueryIds_flatMap n.toNat (by omega) df [] hnd (fun r _ => rfl)

theorem flatMap_filter_index (n : Nat) :
    ∀ (df : List QRow), (df.map (fun r => r.index)).Nodup →
      ∀ r ∈ df,
        (df.flatMap (fun r' => (List.range n).map
            (fun k => { r' with query_id := Int.ofNat (k + 1) }))).filter
          (fun x => decide (x.index = r.index)) =
        (List.range n).map (fun k => { r with query_id := Int.ofNat (k + 1) }) := by
  intro df
  induction df with
  | nil => intro _ r hr; simp at hr
  | cons r0 rest ih =>
    intro hnd r hr
    simp only [List.map_cons, List.nodup_cons] at hnd
    rw [List.flatMap_cons, List.filter_append]
    rcases List.mem_cons.1 hr with h | h
    · subst h
      have h1 : (List.filter (fun x => decide (x.index = r.index))
          ((List.range n).map (fun k => { r with query_id := Int.ofNat (k + 1) }))) =
          (List.range n).map (fun k => { r with query_id := Int.ofNat (k + 1) }) := by
        apply List.filter_eq_self.2
        intro x hx
        obtain ⟨k, _, hk⟩ := List.mem_map.1 hx
        simp [← hk]
      have h2 : (List.filter (fun x => decide (x.index = r.index))
          (rest.flatMap (fun r' => (List.range n).map
            (fun k => { r' with query_id := Int.ofNat (k + 1) })))) = [] := by
        apply List.filter_eq_nil_iff.2
        intro x hx
        simp only [List.mem_flatMap, List.mem_map] at hx
        obtain ⟨r', hr', k, _, hk⟩ := hx
        have hxi : x.index = r'.index := by rw [← hk]
        simp only [decide_eq_true_eq]
        intro hcontra
        apply hnd.1
        have hri : r'.index = r.index := by rw [← hxi, hcontra]
        exact hri ▸ List.mem_map.2 ⟨r', hr', rfl⟩
      rw [h1, h2, List.append_nil]
    · have hne : r.index ≠ r0.index := by
        intro he
        exact hnd.1 (he ▸ List.mem_map.2 ⟨r, h, rfl⟩)
      have h1 : (List.filter (fun x => decide (x.index = r.index))
          ((List.range n).map (fun k => { r0 with query_id := Int.ofNat (k + 1) }))) = [] := by
        apply List.filter_eq_nil_iff.2
        intro x hx
        obtain ⟨k, _, hk⟩ := List.mem_map.1 hx
        have hx0 : x.index = r0.index := by rw [← hk]
        simp only [decide_eq_true_eq]
        intro hcontra
        exact hne (hcontra ▸ hx0)
      rw [h1, List.nil_append]
      exact ih hnd.2 r h

/-- Claim C6: `prepare_repeated_questions` with repetition count R at least 2
produces, for every question of a (unique-index) question set, exactly R rows
carrying `query_id` values 1, …, R in order — a contiguous range with no gaps
or duplicates, the first copy getting 1 — all other fields copying the
question's row; and with R at most 1 it returns the input unchanged. -/
theorem c6_repetition_expander (df : List QRow) (n : Int) :
    (n ≤ 1 → prepare_repeated_questions df n = df) ∧
    (2 ≤ n → (df.map (fun r => r.index)).Nodup → ∀ r ∈ df,
      ((prepare_repeated_questions df n).filter (fun x => decide (x.index = r.index)) =
        (List.range n.toNat).map (fun k => { r with query_id := Int.ofNat (k + 1) })) ∧
      (((prepare_repeated_questions df n).filter
          (fun x => decide (x.index = r.index))).map (fun x => x.query_id) =
        (List.range n.toNat).map (fun k => Int.ofNat (k + 1))) ∧
      (((prepare_repeated_questions df n).filter
          (fun x => decide (x.index = r.index))).length = n.toNat)) := by
  constructor
  · intro hn
    rw [prepare_repeated_questions, if_pos hn]
  · intro hn hnd r hr
    have hfil : (prepare_repeated_questions df n).filter
        (fun x => decide (x.index = r.index)) =
        (List.range n.toNat).map (fun k => { r with query_id := Int.ofNat (k + 1) }) := by
      rw [prepare_repeated_questions_eq df n hn hnd]
      exact flatMap_filter_index n.toNat df hnd r hr
    refine ⟨hfil, ?_, ?_⟩
    · rw [hfil, List.map_map]
      rfl
    · rw [hfil, List.length_map, List.length_range]

/-- Witness for C6 on a concrete two-question set with repeat count 3. -/
theorem c6_repetition_expander_witness :
    (prepare_repeated_questions
        [⟨1, "Q1", "c", "s1", "s2", 0⟩, ⟨2, "Q2", "c", "s1", "s2", 0⟩] 3).filter
      (fun x => decide (x.index = (⟨1, "Q1", "c", "s1", "s2", 0⟩ : QRow).index)) =
      (List.range (3 : Int).toNat).map
        (fun k => { (⟨1, "Q1", "c", "s1", "s2", 0⟩ : QRow) with query_id := Int.ofNat (k + 1) }) :=
  ((c6_repetition_expander
      [⟨1, "Q1", "c", "s1", "s2", 0⟩, ⟨2, "Q2", "c", "s1", "s2", 0⟩] 3).2
    (by decide) (by decide) ⟨1, "Q1", "c", "s1", "s2", 0⟩ (by decide)).1

/-! ## Claim C7 — repair-merge frame property -/

theorem mergePass_get? (col : String) (l : List CRow) (nrow : CRow) (i : Nat) :
    (mergePass col l nrow).get? i = (l.get? i).map (fun orow =>
      if orow.index = nrow.index ∧ orow.query_id = nrow.query_id then
        updateRowCells col nrow orow
      else orow) := by
  simp [mergePass, List.get?_map]

theorem merge_results_get? (col : String) :
    ∀ (newResults original : List CRow) (i : Nat) (orow : CRow),
      original.get? i = some orow →
      ∃ mrow, (merge_results original newResults col).get? i = some mrow ∧
        mrow.index = orow.index ∧ mrow.query_id = orow.query_id ∧
        (∀ c, c ≠ col → lookupA mrow.cells c = lookupA orow.cells c) ∧
        ((∀ nr ∈ newResults, ¬(nr.index = orow.index ∧ nr.query_id = orow.query_id)) →
          mrow = orow) := by
  intro newResults
  induction newResults with
  | nil =>
    intro original i orow ho
    exact ⟨orow, ho, rfl, rfl, fun _ _ => rfl, fun _ => rfl⟩
  | cons nr rest ih =>
    intro original i orow ho
    have hstep : merge_results original (nr :: rest) col =
        merge_results (mergePass col original nr) rest col := rfl
    by_cases hmatch : orow.index = nr.index ∧ orow.query_id = nr.query_id
    · set orow' : CRow := updateRowCells col nr orow with horow'
      have ho' : (mergePass col original nr).get? i = some orow' := by
        rw [mergePass_get?, ho]
        simp [hmatch]
      obtain ⟨mrow, hm, h1, h2, h3, h4⟩ := ih (mergePass col original nr) i orow' ho'
      refine ⟨mrow, hstep ▸ hm, h1, h2, ?_, ?_⟩
      · intro c hc
        rw [h3 c hc, horow']
        simp only [updateRowCells]
        exact lookupA_updA_ne _ _ _ _ hc
      · intro hnone
        exact absurd ⟨hmatch.1.symm, hmatch.2.symm⟩ (hnone nr (List.mem_cons_self nr rest))
    · have ho' : (mergePass col original nr).get? i = some orow := by
        rw [mergePass_get?, ho]
        simp [hmatch]
      obtain ⟨mrow, hm, h1, h2, h3, h4⟩ := ih (mergePass col original nr) i orow ho'
      refine ⟨mrow, hstep ▸ hm, h1, h2, h3, ?_⟩
      intro hnone
      exact h4 (fun nr' hnr' => hnone nr' (List.mem_cons_of_mem nr hnr'))

theorem merge_results_length (col : String) :
    ∀ (newResults original : List CRow),
      (merge_results original newResults col).length = original.length := by
  intro newResults
  induction newResults with
  | nil => intro original; rfl
  | cons nr rest ih =>
    intro original
    have hstep : merge_results original (nr :: rest) col =
        merge_results (mergePass col original nr) rest col := rfl
    rw [hstep, ih, mergePass, List.length_map]

/-- Claim C7: `merge_results` changes only the targeted response column's
cells, and only in rows whose `(index, query_id)` key matches some row of
the repair result; every other cell of every row — and every row whose key
matches no repair row — is identical to the original, and the row count is
preserved.  The update condition depends only on the row's key, never on its
position. -/
theorem c7_merge_frame_property (original newResults : List CRow) (col : String)
    (i : Nat) (orow : CRow) (ho : original.get? i = some orow) :
    (merge_results original newResults col).length = original.length ∧
    ∃ mrow, (merge_results original newResults col).get? i = some mrow ∧
      mrow.index = orow.index ∧ mrow.query_id = orow.query_id ∧
      (∀ c, c ≠ col → lookupA mrow.cells c = lookupA orow.cells c) ∧
      ((∀ nr ∈ newResults, ¬(nr.index = orow.index ∧ nr.query_id = orow.query_id)) →
        mrow = orow) :=
  ⟨merge_results_length col newResults original,
    merge_results_get? col newResults original i orow ho⟩

/-- Witness for C7 on a concrete pair of tables. -/
theorem c7_merge_frame_property_witness :
    (merge_results
        [⟨1, 1, [("question", "Q1"), ("anthropic_response", "Error: x")]⟩,
          ⟨1, 2, [("question", "Q1"), ("anthropic_response", "fine")]⟩]
        [⟨1, 1, [("anthropic_response", "better")]⟩]
        "anthropic_response").length =
      ([⟨1, 1, [("question", "Q1"), ("anthropic_response", "Error: x")]⟩,
        ⟨1, 2, [("question", "Q1"), ("anthropic_response", "fine")]⟩] : List CRow).length :=
  (c7_merge_frame_property
    [⟨1, 1, [("question", "Q1"), ("anthropic_response", "Error: x")]⟩,
      ⟨1, 2, [("question", "Q1"), ("anthropic_response", "fine")]⟩]
    [⟨1, 1, [("anthropic_response", "better")]⟩]
    "anthropic_response" 0
    ⟨1, 1, [("question", "Q1"), ("anthropic_response", "Error: x")]⟩ (by decide)).1

/-! ## Claim C8 — repair error-detection filter -/

/-- Claim C8: `extract_failed_queries` selects a row exactly when its
`{provider}_response` cell contains, as a case-insensitive substring, one of
the patterns `Error`, `RateLimitError`, `APIStatusError` or `RetryError`;
in particular a cell containing `RateLimitError` is selected for re-run and
a cell containing ordinary text is not. -/
theorem c8_error_detection_filter :
    (∀ (df : List CRow) (model : String) (r : CRow),
      r ∈ extract_failed_queries df model ↔
        r ∈ df ∧ ∃ s, lookupA r.cells (model ++ "_response") = some s ∧
          (containsCI s "Error" = true ∨ containsCI s "RateLimitError" = true ∨
            containsCI s "APIStatusError" = true ∨ containsCI s "RetryError" = true)) ∧
    (⟨1, 1, [("anthropic_response", "RateLimitError: too many requests")]⟩ : CRow) ∈
      extract_failed_queries
        [⟨1, 1, [("anthropic_response", "RateLimitError: too many requests")]⟩,
          ⟨2, 1, [("anthropic_response", "The heart pumps blood.")]⟩] "anthropic" ∧
    (⟨2, 1, [("anthropic_response", "The heart pumps blood.")]⟩ : CRow) ∉
      extract_failed_queries
        [⟨1, 1, [("anthropic_response", "RateLimitError: too many requests")]⟩,
          ⟨2, 1, [("anthropic_response", "The heart pumps blood.")]⟩] "anthropic" := by
  refine ⟨?_, by decide, by decide⟩
  intro df model r
  rw [extract_failed_queries, List.mem_filter]
  constructor
  · rintro ⟨hmem, hp⟩
    refine ⟨hmem, ?_⟩
    cases hl : lookupA r.cells (model ++ "_response") with
    | none => rw [hl] at hp; simp at hp
    | some s =>
      rw [hl] at hp
      simp only [error_mask_cell, Bool.or_eq_true] at hp
      exact ⟨s, rfl, by tauto⟩
  · rintro ⟨hmem, s, hl, hdisj⟩
    refine ⟨hmem, ?_⟩
    rw [hl]
    simp only [error_mask_cell, Bool.or_eq_true]
    tauto

/-! ## Claim C9 — citation title fallback -/

/-- Claim C9: the Perplexity adapter derives a citation's fallback title
from the URL's domain with the `www.` prefix stripped, special-casing
YouTube URLs (fixed title `YouTube Video`) and Wikipedia URLs containing
`/wiki/` (title `Wikipedia: topic`, the topic being the split segment after
`/wiki/` with underscores replaced by spaces); citations of the simple
top-level format are emitted in the uniform url/title/text shape with the
derived title and empty text. -/
theorem c9_citation_title_fallback :
    (∀ url : String,
      (containsStr (removePre (netloc url) "www.") "youtube.com" = true ∨
        containsStr (removePre (netloc url) "www.") "youtu.be" = true) →
      domain_title url = "YouTube Video") ∧
    (∀ (url : String) (seg1 seg2 : List Char) (restSegs : List (List Char)),
      containsStr (removePre (netloc url) "www.") "youtube.com" = false →
      containsStr (removePre (netloc url) "www.") "youtu.be" = false →
      containsStr (removePre (netloc url) "www.") "wikipedia.org" = true →
      containsStr url "/wiki/" = true →
      splitOnChars '/' (String.toList "wiki/") url.toList = seg1 :: seg2 :: restSegs →
      domain_title url =
        "Wikipedia: " ++ String.mk (seg2.map (fun c => if c = '_' then ' ' else c))) ∧
    (∀ url : String,
      containsStr (removePre (netloc url) "www.") "youtube.com" = false →
      containsStr (removePre (netloc url) "www.") "youtu.be" = false →
      (containsStr (removePre (netloc url) "www.") "wikipedia.org" = false ∨
        containsStr url "/wiki/" = false) →
      domain_title url = removePre (netloc url) "www.") ∧
    (∀ urls : List String,
      extract_citations ⟨urls, []⟩ =
        urls.map (fun url => ⟨url, domain_title url, ""⟩)) ∧
    domain_title "https://en.wikipedia.org/wiki/Heart_failure" = "Wikipedia: Heart failure" ∧
    domain_title "https://www.youtube.com/watch?v=abc123" = "YouTube Video" ∧
    domain_title "https://www.nejm.org/doi/full/10.1056" = "nejm.org" ∧
    extract_citations ⟨[], [⟨⟨[⟨"link", some ⟨some "https://www.nejm.org/doi/full/10.1056",
        none, none⟩⟩], []⟩⟩]⟩ =
      [⟨"https://www.nejm.org/doi/full/10.1056", "nejm.org", ""⟩] := by
  refine ⟨?_, ?_, ?_, ?_, by decide, by decide, by decide, by decide⟩
  · intro url h
    have hb : (containsStr (removePre (netloc url) "www.") "youtube.com" ||
        containsStr (removePre (netloc url) "www.") "youtu.be") = true := by
      rcases h with h | h <;> simp [h]
    simp only [domain_title]
    rw [if_pos hb]
  · intro url seg1 seg2 restSegs h1 h2 h3 h4 hsplit
    have hb : (containsStr (removePre (netloc url) "www.") "youtube.com" ||
        containsStr (removePre (netloc url) "www.") "youtu.be") = false := by
      simp [h1, h2]
    have hw : (containsStr (removePre (netloc url) "www.") "wikipedia.org" &&
        containsStr url "/wiki/") = true := by
      simp [h3, h4]
    simp only [domain_title]
    rw [if_neg (by simp [hb]), if_pos hw, hsplit]
  · intro url h1 h2 h3
    have hb : (containsStr (removePre (netloc url) "www.") "youtube.com" ||
        containsStr (removePre (netloc url) "www.") "youtu.be") = false := by
      simp [h1, h2]
    have hw : (containsStr (removePre (netloc url) "www.") "wikipedia.org" &&
        containsStr url "/wiki/") = false := by
      rcases h3 with h | h <;> simp [h]
    simp only [domain_title]
    rw [if_neg (by simp [hb]), if_neg (by simp [hw])]
  · intro urls
    simp [extract_citations]

/-- Witness for C9: the YouTube special case applied at a concrete URL. -/
theorem c9_citation_title_fallback_witness :
    domain_title "https://youtu.be/dQw4w9WgXcQ" = "YouTube Video" :=
  c9_citation_title_fallback.1 "https://youtu.be/dQw4w9WgXcQ" (Or.inr (by decide))

/-! ## Engine lemmas — submission loop -/

theorem updA_pred {κ α : Type} [DecidableEq κ] (P : κ × α → Prop) (k : κ)
    (f : Option α → α) :
    ∀ (l : List (κ × α)), (∀ p ∈ l, P p) → P (k, f none) →
      (∀ a, P (k, a) → P (k, f (some a))) →
      ∀ p ∈ updA l k f, P p := by
  intro l
  induction l with
  | nil =>
    intro _ h0 _ p hp
    simp only [updA, List.mem_singleton] at hp
    exact hp ▸ h0
  | cons hd tl ih =>
    obtain ⟨k1, v⟩ := hd
    intro hall h0 h1 p hp
    by_cases hk : k = k1
    · subst hk
      have hupd : updA ((k, v) :: tl) k f = (k, f (some v)) :: tl := by
        simp [updA]
      rw [hupd, List.mem_cons] at hp
      rcases hp with hp | hp
      · exact hp ▸ h1 v (hall (k, v) (by simp))
      · exact hall p (List.mem_cons_of_mem _ hp)
    · have hupd : updA ((k1, v) :: tl) k f = (k1, v) :: updA tl k f := by
        simp [updA, hk]
      rw [hupd, List.mem_cons] at hp
      rcases hp with hp | hp
      · exact hp ▸ hall (k1, v) (by simp)
      · exact ih (fun q hq => hall q (List.mem_cons_of_mem _ hq)) h0 h1 p hp

theorem updA_pred_of_mem {κ α : Type} [DecidableEq κ] (P : κ × α → Prop) (k : κ)
    (f : Option α → α) :
    ∀ (l : List (κ × α)), (lookupA l k).isSome → (∀ p ∈ l, P p) →
      (∀ a, P (k, a) → P (k, f (some a))) →
      ∀ p ∈ updA l k f, P p := by
  intro l
  induction l with
  | nil => intro h; simp [lookupA] at h
  | cons hd tl ih =>
    obtain ⟨k1, v⟩ := hd
    intro hsome hall h1 p hp
    by_cases hk : k = k1
    · subst hk
      have hupd : updA ((k, v) :: tl) k f = (k, f (some v)) :: tl := by
        simp [updA]
      rw [hupd, List.mem_cons] at hp
      rcases hp with hp | hp
      · exact hp ▸ h1 v (hall (k, v) (by simp))
      · exact hall p (List.mem_cons_of_mem _ hp)
    · have hlk : lookupA ((k1, v) :: tl) k = lookupA tl k := by
        simp [lookupA, hk]
      rw [hlk] at hsome
      have hupd : updA ((k1, v) :: tl) k f = (k1, v) :: updA tl k f := by
        simp [updA, hk]
      rw [hupd, List.mem_cons] at hp
      rcases hp with hp | hp
      · exact hp ▸ hall (k1, v) (by simp)
      · exact ih hsome (fun q hq => hall q (List.mem_cons_of_mem _ hq)) h1 p hp

theorem phase1Step_good (models : List String) (inst : Instances)
    (processed : List QRow) (st : P1State) (row : QRow)
    (hg : P1Good models inst processed st) :
    P1Good models inst (processed ++ [row]) (phase1Step models inst st row) := by
  obtain ⟨hnd, hmem, hbind, hfut, hex⟩ := hg
  have hfut' : ∀ f ∈ (phase1Step models inst st row).futures,
      ∃ r ∈ processed ++ [row], f.key = (r.index, r.query_id) ∧
        f.model_key ∈ models ∧
        f.result = query_single_model r.question f.model_key (inst f.model_key) := by
    intro f hf
    simp only [phase1Step, List.mem_append] at hf
    rcases hf with hf | hf
    · obtain ⟨r, hr, h1, h2, h3⟩ := hfut f hf
      exact ⟨r, List.mem_append_left _ hr, h1, h2, h3⟩
    · obtain ⟨m, hm, hfm⟩ := List.mem_map.1 hf
      refine ⟨row, List.mem_append_right _ (by simp), ?_, ?_, ?_⟩ <;>
        simp [← hfm, hm]
  have hexmono : ∀ k ∈ st.rd.map Prod.fst, ∀ m ∈ models,
      ∃ f ∈ (phase1Step models inst st row).futures, f.key = k ∧ f.model_key = m := by
    intro k hk m hm
    obtain ⟨f, hf, h1, h2⟩ := hex k hk m hm
    exact ⟨f, by simp [phase1Step, List.mem_append, hf], h1, h2⟩
  have hnewfut : ∀ m ∈ models, ∃ f ∈ (phase1Step models inst st row).futures,
      f.key = (row.index, row.query_id) ∧ f.model_key = m := by
    intro m hm
    refine ⟨FutureE.mk (row.index, row.query_id) m
        (query_single_model row.question m (inst m)), ?_, rfl, rfl⟩
    simp only [phase1Step, List.mem_append]
    exact Or.inr (List.mem_map.2 ⟨m, hm, rfl⟩)
  cases hlk : lookupA st.rd (row.index, row.query_id) with
  | some e =>
    have hrd : (phase1Step models inst st row).rd = st.rd := by
      simp [phase1Step, hlk]
    have hkmem : (row.index, row.query_id) ∈ st.rd.map Prod.fst := by
      rw [← lookupA_isSome_iff, hlk]
      rfl
    refine ⟨by rw [hrd]; exact hnd, ?_, by rw [hrd]; exact hbind, hfut', ?_⟩
    · intro k
      rw [hrd, hmem k]
      constructor
      · intro h
        simp only [List.map_append, List.mem_append]
        exact Or.inl h
      · intro h
        simp only [List.map_append, List.mem_append, List.map_cons, List.map_nil,
          List.mem_singleton] at h
        rcases h with h | h
        · exact h
        · subst h
          exact (hmem _).1 hkmem
    · intro k hk m hm
      rw [hrd] at hk
      exact hexmono k hk m hm
  | none =>
    have hrd : (phase1Step models inst st row).rd =
        st.rd ++ [((row.index, row.query_id), mkEntry row)] := by
      simp [phase1Step, hlk]
    have hkne : (row.index, row.query_id) ∉ st.rd.map Prod.fst :=
      (lookupA_eq_none_iff _ _).1 hlk
    refine ⟨?_, ?_, ?_, hfut', ?_⟩
    · rw [hrd]
      simp only [List.map_append, List.map_cons, List.map_nil]
      rw [List.nodup_append]
      exact ⟨hnd, List.nodup_singleton _, by simpa using hkne⟩
    · intro k
      rw [hrd]
      simp only [List.map_append, List.mem_append, List.map_cons, List.map_nil,
        List.mem_singleton]
      rw [hmem k]
    · intro pr hpr
      rw [hrd] at hpr
      rcases List.mem_append.1 hpr with h | h
      · exact hbind pr h
      · simp only [List.mem_singleton] at h
        subst h
        exact ⟨rfl, rfl, rfl⟩
    · intro k hk m hm
      rw [hrd] at hk
      simp only [List.map_append, List.mem_append, List.map_cons, List.map_nil,
        List.mem_singleton] at hk
      rcases hk with hk | hk
      · exact hexmono k hk m hm
      · subst hk
        exact hnewfut m hm

theorem phase1_fold_good (models : List String) (inst : Instances) :
    ∀ (df processed : List QRow) (st : P1State),
      P1Good models inst processed st →
      P1Good models inst (processed ++ df) (df.foldl (phase1Step models inst) st) := by
  intro df
  induction df with
  | nil => intro processed st hg; simpa using hg
  | cons row rest ih =>
    intro processed st hg
    have h1 := phase1Step_good models inst processed st row hg
    have h2 := ih (processed ++ [row]) (phase1Step models inst st row) h1
    simpa using h2

theorem phase1Run_good (models : List String) (inst : Instances) (df : List QRow)
    (store : Bool) : P1Good models inst df (phase1Run models inst df store) := by
  have hinit : P1Good models inst []
      ⟨[], if store then some [] else none, []⟩ := by
    refine ⟨List.nodup_nil, by simp, by simp, by simp, by simp⟩
  have := phase1_fold_good models inst df [] _ hinit
  simpa [phase1Run] using this

/-! ## Engine lemmas — collection loop -/

theorem phase2Step_rd (st : List ((Int × Int) × Entry) × Option Raw) (f : FutureE) :
    (phase2Step st f).1 = updA st.1 f.key (fun o =>
      let e := o.getD emptyEntry
      { e with responses := updA e.responses f.model_key (fun _ => f.result.2.1) }) := rfl

theorem phase2_fold_keys :
    ∀ (futures : List FutureE) (st : List ((Int × Int) × Entry) × Option Raw),
      (∀ f ∈ futures, f.key ∈ st.1.map Prod.fst) →
      (futures.foldl phase2Step st).1.map Prod.fst = st.1.map Prod.fst := by
  intro futures
  induction futures with
  | nil => intro st _; rfl
  | cons f fs ih =>
    intro st hall
    have h1 : (phase2Step st f).1.map Prod.fst = st.1.map Prod.fst := by
      rw [phase2Step_rd]
      exact updA_map_fst_of_some _ _ _
        ((lookupA_isSome_iff _ _).2 (hall f (List.mem_cons_self f fs)))
    have h2 := ih (phase2Step st f)
      (fun g hg => h1 ▸ hall g (List.mem_cons_of_mem f hg))
    rw [List.foldl_cons, h2, h1]

theorem phase2_fold_binding :
    ∀ (futures : List FutureE) (st : List ((Int × Int) × Entry) × Option Raw),
      (∀ f ∈ futures, f.key ∈ st.1.map Prod.fst) →
      (∀ pr ∈ st.1, pr.2.index = pr.1.1 ∧ pr.2.query_id = pr.1.2) →
      ∀ pr ∈ (futures.foldl phase2Step st).1,
        pr.2.index = pr.1.1 ∧ pr.2.query_id = pr.1.2 := by
  intro futures
  induction futures with
  | nil => intro st _ hb; exact hb
  | cons f fs ih =>
    intro st hall hb
    have h1 : (phase2Step st f).1.map Prod.fst = st.1.map Prod.fst := by
      rw [phase2Step_rd]
      exact updA_map_fst_of_some _ _ _
        ((lookupA_isSome_iff _ _).2 (hall f (List.mem_cons_self f fs)))
    have hb' : ∀ pr ∈ (phase2Step st f).1,
        pr.2.index = pr.1.1 ∧ pr.2.query_id = pr.1.2 := by
      rw [phase2Step_rd]
      apply updA_pred_of_mem _ _ _ _
        ((lookupA_isSome_iff _ _).2 (hall f (List.mem_cons_self f fs))) hb
      intro a ha
      exact ha
    exact ih (phase2Step st f)
      (fun g hg => h1 ▸ hall g (List.mem_cons_of_mem f hg)) hb'

theorem phase2Step_cell_mono (st : List ((Int × Int) × Entry) × Option Raw)
    (f : FutureE) (k : Int × Int) (m : String)
    (h : ∃ e, lookupA st.1 k = some e ∧ (lookupA e.responses m).isSome) :
    ∃ e, lookupA (phase2Step st f).1 k = some e ∧ (lookupA e.responses m).isSome := by
  obtain ⟨e, he, hm⟩ := h
  rw [phase2Step_rd]
  by_cases hk : k = f.key
  · subst hk
    refine ⟨_, lookupA_updA_self _ _ _, ?_⟩
    rw [he]
    by_cases hm2 : m = f.model_key
    · subst hm2
      simp only [Option.getD_some]
      rw [lookupA_updA_self]
      rfl
    · simp only [Option.getD_some]
      rw [lookupA_updA_ne _ _ _ _ hm2]
      exact hm
  · rw [lookupA_updA_ne _ _ _ _ hk]
    exact ⟨e, he, hm⟩

theorem phase2Step_cell_sets (st : List ((Int × Int) × Entry) × Option Raw)
    (f : FutureE) :
    ∃ e, lookupA (phase2Step st f).1 f.key = some e ∧
      (lookupA e.responses f.model_key).isSome := by
  rw [phase2Step_rd]
  refine ⟨_, lookupA_updA_self _ _ _, ?_⟩
  rw [lookupA_updA_self]
  rfl

theorem phase2_fold_cell (k : Int × Int) (m : String) :
    ∀ (futures : List FutureE) (st : List ((Int × Int) × Entry) × Option Raw),
      ((∃ e, lookupA st.1 k = some e ∧ (lookupA e.responses m).isSome) ∨
        (∃ f ∈ futures, f.key = k ∧ f.model_key = m)) →
      ∃ e, lookupA (futures.foldl phase2Step st).1 k = some e ∧
        (lookupA e.responses m).isSome := by
  intro futures
  induction futures with
  | nil =>
    rintro st (h | ⟨f, hf, _⟩)
    · exact h
    · simp at hf
  | cons f fs ih =>
    rintro st (h | ⟨g, hg, hk, hm⟩)
    · exact ih (phase2Step st f) (Or.inl (phase2Step_cell_mono st f k m h))
    · rcases List.mem_cons.1 hg with hgf | hgf
      · subst hgf
        subst hk
        subst hm
        exact ih (phase2Step st g) (Or.inl (phase2Step_cell_sets st g))
      · exact ih (phase2Step st f) (Or.inr ⟨g, hgf, hk, hm⟩)

theorem phase2_fold_cell_const (p c : String) :
    ∀ (futures : List FutureE) (st : List ((Int × Int) × Entry) × Option Raw),
      (∀ f ∈ futures, f.model_key = p → f.result.2.1 = c) →
      (∀ pr ∈ st.1, ∀ v, lookupA pr.2.responses p = some v → v = c) →
      ∀ pr ∈ (futures.foldl phase2Step st).1, ∀ v,
        lookupA pr.2.responses p = some v → v = c := by
  intro futures
  induction futures with
  | nil => intro st _ hc; exact hc
  | cons f fs ih =>
    intro st hall hc
    have hstep : ∀ pr ∈ (phase2Step st f).1, ∀ v,
        lookupA pr.2.responses p = some v → v = c := by
      rw [phase2Step_rd]
      refine updA_pred
        (fun pr => ∀ v, lookupA pr.2.responses p = some v → v = c)
        f.key _ st.1 hc ?_ ?_
      · intro v hv
        simp only [Option.getD_none] at hv
        have hre : updA emptyEntry.responses f.model_key (fun _ => f.result.2.1) =
            [(f.model_key, f.result.2.1)] := rfl
        rw [hre] at hv
        by_cases hm : p = f.model_key
        · rw [hm] at hv
          simp only [lookupA, if_pos rfl] at hv
          rw [← Option.some_inj.1 hv]
          exact hall f (List.mem_cons_self f fs) hm.symm
        · simp [lookupA, hm] at hv
      · intro a ha v hv
        simp only [Option.getD_some] at hv
        by_cases hm : p = f.model_key
        · subst hm
          rw [lookupA_updA_self] at hv
          rw [← Option.some_inj.1 hv]
          exact hall f (List.mem_cons_self f fs) rfl
        · rw [lookupA_updA_ne _ _ _ _ hm] at hv
          exact ha v hv
    exact ih (phase2Step st f)
      (fun g hg hp => hall g (List.mem_cons_of_mem f hg) hp) hstep

/-! ## Claims C1 and C2 — result assembler invariants -/

theorem query_models_parallel_fst (df : List QRow) (models : List String)
    (inst : Instances) (store : Bool) :
    (query_models_parallel df models inst store).1 =
      ((phase1Run models inst df store).futures.foldl phase2Step
        ((phase1Run models inst df store).rd,
          (phase1Run models inst df store).raw)).1.map (·.2) := rfl

theorem phase1_futures_keys (df : List QRow) (models : List String)
    (inst : Instances) (store : Bool) :
    ∀ f ∈ (phase1Run models inst df store).futures,
      f.key ∈ (phase1Run models inst df store).rd.map Prod.fst := by
  obtain ⟨hnd, hmem, hbind, hfut, hex⟩ := phase1Run_good models inst df store
  intro f hf
  obtain ⟨row, hrow, hk, _, _⟩ := hfut f hf
  rw [hk]
  exact (hmem _).2 (List.mem_map.2 ⟨row, hrow, rfl⟩)

/-- Claim C1: for every completed run, the result table has exactly one row
per distinct `(index, query_id)` pair of the (expanded, selected) input —
the result's key list has no duplicates, and a key occurs in it exactly when
it occurs in the input. -/
theorem c1_row_identity (df : List QRow) (models : List String) (inst : Instances)
    (store : Bool) :
    ((query_models_parallel df models inst store).1.map
      (fun e => (e.index, e.query_id))).Nodup ∧
    (∀ k : Int × Int,
      k ∈ (query_models_parallel df models inst store).1.map
        (fun e => (e.index, e.query_id)) ↔
      k ∈ df.map (fun r => (r.index, r.query_id))) := by
  obtain ⟨hnd, hmem, hbind, hfut, hex⟩ := phase1Run_good models inst df store
  have hkeys_in := phase1_futures_keys df models inst store
  set p1 := phase1Run models inst df store with hp1
  have hkeys := phase2_fold_keys p1.futures (p1.rd, p1.raw) hkeys_in
  have hbind2 := phase2_fold_binding p1.futures (p1.rd, p1.raw) hkeys_in
    (fun pr hpr => ⟨(hbind pr hpr).1, (hbind pr hpr).2.1⟩)
  have hmap : ((p1.futures.foldl phase2Step (p1.rd, p1.raw)).1.map (·.2)).map
      (fun e => (e.index, e.query_id)) =
      (p1.futures.foldl phase2Step (p1.rd, p1.raw)).1.map Prod.fst := by
    rw [List.map_map]
    apply List.map_congr_left
    intro pr hpr
    obtain ⟨h1, h2⟩ := hbind2 pr hpr
    simp only [Function.comp_apply]
    rw [h1, h2]
  constructor
  · rw [query_models_parallel_fst, hmap, hkeys]
    exact hnd
  · intro k
    rw [query_models_parallel_fst, hmap, hkeys]
    exact hmem k

/-- Claim C2: errors are recorded as data, never raised past the task
boundary — a task whose (retried) adapter call raises returns the content
string `Error: …` rather than propagating the exception, and after a
completed run every result row has a present (non-null) response cell for
every requested provider. -/
theorem c2_error_recorded_as_data (df : List QRow) (models : List String)
    (inst : Instances) (store : Bool) :
    (∀ (q mk e : String) (call : CallFn), call q = Except.error e →
      query_single_model q mk (some call) = (mk, "Error: " ++ e, none)) ∧
    (∀ en ∈ (query_models_parallel df models inst store).1, ∀ m ∈ models,
      (lookupA en.responses m).isSome) := by
  constructor
  · intro q mk e call hc
    simp [query_single_model, hc]
  · obtain ⟨hnd, hmem, hbind, hfut, hex⟩ := phase1Run_good models inst df store
    have hkeys_in := phase1_futures_keys df models inst store
    set p1 := phase1Run models inst df store with hp1
    have hkeys := phase2_fold_keys p1.futures (p1.rd, p1.raw) hkeys_in
    intro en hen m hm
    rw [query_models_parallel_fst] at hen
    obtain ⟨pr, hpr, hpr2⟩ := List.mem_map.1 hen
    have hkmem : pr.1 ∈ p1.rd.map Prod.fst := by
      rw [← hkeys]
      exact List.mem_map.2 ⟨pr, hpr, rfl⟩
    obtain ⟨f, hf, hfk, hfm⟩ := hex pr.1 hkmem m hm
    obtain ⟨e2, he2, hsome⟩ := phase2_fold_cell pr.1 m p1.futures (p1.rd, p1.raw)
      (Or.inr ⟨f, hf, hfk, hfm⟩)
    have hndf : ((p1.futures.foldl phase2Step (p1.rd, p1.raw)).1.map Prod.fst).Nodup := by
      rw [hkeys]
      exact hnd
    have hlk : lookupA (p1.futures.foldl phase2Step (p1.rd, p1.raw)).1 pr.1 =
        some pr.2 :=
      lookupA_of_mem_nodup _ _ _ hpr hndf
    rw [hlk] at he2
    rw [← hpr2, Option.some_inj.1 he2]
    exact hsome

/-- Witness for C2: the error conversion at a concrete always-raising call,
and cell presence on a concrete completed run. -/
theorem c2_error_recorded_as_data_witness :
    query_single_model "Q1" "openai"
        (some (fun _ => Except.error "boom")) = ("openai", "Error: boom", none) :=
  (c2_error_recorded_as_data [] ["openai"]
      (fun _ => none) true).1 "Q1" "openai" "boom" (fun _ => Except.error "boom") rfl

/-! ## Claim C5 — provider initialization failure -/

theorem updA_rel {κ α : Type} [DecidableEq κ] (R : α → α → Prop) (k : κ)
    (f g : Option α → α) (h0 : R (f none) (g none))
    (h1 : ∀ a a', R a a' → R (f (some a)) (g (some a'))) :
    ∀ (l l' : List (κ × α)),
      List.Forall₂ (fun x y => x.1 = y.1 ∧ R x.2 y.2) l l' →
      List.Forall₂ (fun x y => x.1 = y.1 ∧ R x.2 y.2) (updA l k f) (updA l' k g) := by
  intro l l' hrel
  induction hrel with
  | nil =>
    simp only [updA]
    exact List.Forall₂.cons ⟨rfl, h0⟩ List.Forall₂.nil
  | @cons a b l₁ l₂ hab htail ih =>
    obtain ⟨ka, va⟩ := a
    obtain ⟨kb, vb⟩ := b
    obtain ⟨hk1, hR⟩ := hab
    simp only at hk1
    subst hk1
    by_cases hk : k = ka
    · subst hk
      have e1 : updA ((k, va) :: l₁) k f = (k, f (some va)) :: l₁ := by simp [updA]
      have e2 : updA ((k, vb) :: l₂) k g = (k, g (some vb)) :: l₂ := by simp [updA]
      rw [e1, e2]
      exact List.Forall₂.cons ⟨rfl, h1 va vb hR⟩ htail
    · have e1 : updA ((ka, va) :: l₁) k f = (ka, va) :: updA l₁ k f := by
        simp [updA, hk]
      have e2 : updA ((ka, vb) :: l₂) k g = (ka, vb) :: updA l₂ k g := by
        simp [updA, hk]
      rw [e1, e2]
      exact List.Forall₂.cons ⟨rfl, hR⟩ ih

theorem forall₂_append2 {α β : Type} (R : α → β → Prop) :
    ∀ {l₁ u₁ : List α} {l₂ u₂ : List β}, List.Forall₂ R l₁ l₂ →
      List.Forall₂ R u₁ u₂ → List.Forall₂ R (l₁ ++ u₁) (l₂ ++ u₂) := by
  intro l₁ u₁ l₂ u₂ h1 h2
  induction h1 with
  | nil => exact h2
  | cons hab _ ih => exact List.Forall₂.cons hab ih

theorem forall₂_map_same {α β : Type} (R : β → β → Prop) (f g : α → β) :
    ∀ l : List α, (∀ a ∈ l, R (f a) (g a)) →
      List.Forall₂ R (l.map f) (l.map g) := by
  intro l
  induction l with
  | nil => intro _; exact List.Forall₂.nil
  | cons a t ih =>
    intro h
    exact List.Forall₂.cons (h a (by simp)) (ih (fun b hb => h b (by simp [hb])))

theorem forall₂_rd_refl (p : String) :
    ∀ l : List ((Int × Int) × Entry),
      List.Forall₂ (fun x y => x.1 = y.1 ∧ respAgree p x.2 y.2) l l := by
  intro l
  induction l with
  | nil => exact List.Forall₂.nil
  | cons a t ih =>
    exact List.Forall₂.cons
      ⟨rfl, ⟨rfl, rfl, rfl, rfl, rfl, rfl⟩, fun _ _ => rfl⟩ ih

theorem forall₂_map_snd {R : Entry → Entry → Prop} :
    ∀ {l l' : List ((Int × Int) × Entry)},
      List.Forall₂ (fun x y => x.1 = y.1 ∧ R x.2 y.2) l l' →
      List.Forall₂ R (l.map (·.2)) (l'.map (·.2)) := by
  intro l l' h
  induction h with
  | nil => exact List.Forall₂.nil
  | cons hab _ ih => exact List.Forall₂.cons hab.2 ih

theorem phase1_fold_frame (models : List String) (inst inst' : Instances) (p : String)
    (hagree : ∀ m, m ≠ p → inst m = inst' m) :
    ∀ (df : List QRow) (st st' : P1State), st.rd = st'.rd →
      List.Forall₂ (futAgree p) st.futures st'.futures →
      (df.foldl (phase1Step models inst) st).rd =
        (df.foldl (phase1Step models inst') st').rd ∧
      List.Forall₂ (futAgree p) (df.foldl (phase1Step models inst) st).futures
        (df.foldl (phase1Step models inst') st').futures := by
  intro df
  induction df with
  | nil => intro st st' h1 h2; exact ⟨h1, h2⟩
  | cons row rest ih =>
    intro st st' h1 h2
    simp only [List.foldl_cons]
    apply ih
    · show (phase1Step models inst st row).rd = (phase1Step models inst' st' row).rd
      simp only [phase1Step, h1]
    · show List.Forall₂ (futAgree p) (phase1Step models inst st row).futures
        (phase1Step models inst' st' row).futures
      simp only [phase1Step]
      apply forall₂_append2 _ h2
      apply forall₂_map_same
      intro m _
      refine ⟨rfl, rfl, ?_⟩
      intro hmp
      show query_single_model row.question m (inst m) =
        query_single_model row.question m (inst' m)
      rw [hagree m hmp]

theorem phase2Step_frame (p : String)
    (st st' : List ((Int × Int) × Entry) × Option Raw) (f f' : FutureE)
    (hf : futAgree p f f')
    (hrel : List.Forall₂ (fun x y => x.1 = y.1 ∧ respAgree p x.2 y.2) st.1 st'.1) :
    List.Forall₂ (fun x y => x.1 = y.1 ∧ respAgree p x.2 y.2)
      (phase2Step st f).1 (phase2Step st' f').1 := by
  obtain ⟨hk, hm, hres⟩ := hf
  have hcont : f.model_key ≠ p → f.result.2.1 = f'.result.2.1 := by
    intro h
    rw [hres h]
  rw [phase2Step_rd, phase2Step_rd, ← hk, ← hm]
  apply updA_rel (respAgree p) f.key _ _ ?_ ?_ _ _ hrel
  · refine ⟨⟨rfl, rfl, rfl, rfl, rfl, rfl⟩, ?_⟩
    intro m' hm'
    simp only [Option.getD_none]
    by_cases hmm : m' = f.model_key
    · subst hmm
      rw [lookupA_updA_self, lookupA_updA_self]
      rw [hcont (fun hfp => hm' hfp)]
    · rw [lookupA_updA_ne _ _ _ _ hmm, lookupA_updA_ne _ _ _ _ hmm]
  · intro a a' ha
    obtain ⟨hmeta, hcells⟩ := ha
    obtain ⟨m1, m2, m3, m4, m5, m6⟩ := hmeta
    refine ⟨⟨m1, m2, m3, m4, m5, m6⟩, ?_⟩
    intro m' hm'
    simp only [Option.getD_some]
    by_cases hmm : m' = f.model_key
    · subst hmm
      rw [lookupA_updA_self, lookupA_updA_self]
      rw [hcont (fun hfp => hm' hfp)]
    · rw [lookupA_updA_ne _ _ _ _ hmm, lookupA_updA_ne _ _ _ _ hmm]
      exact hcells m' hm'

theorem phase2_fold_frame (p : String) :
    ∀ {fs fs' : List FutureE}, List.Forall₂ (futAgree p) fs fs' →
      ∀ (st st' : List ((Int × Int) × Entry) × Option Raw),
        List.Forall₂ (fun x y => x.1 = y.1 ∧ respAgree p x.2 y.2) st.1 st'.1 →
        List.Forall₂ (fun x y => x.1 = y.1 ∧ respAgree p x.2 y.2)
          (fs.foldl phase2Step st).1 (fs'.foldl phase2Step st').1 := by
  intro fs fs' hff
  induction hff with
  | nil => intro st st' h; exact h
  | cons hab _ ih =>
    intro st st' h
    exact ih _ _ (phase2Step_frame p st st' _ _ hab h)

/-- Claim C5, counterexample to the "without consuming a worker slot" part:
in a run where provider `anthropic` failed to initialize, a task for
`anthropic` is nevertheless submitted to the worker pool (it appears in the
submitted futures list like any other task; the short-circuit to the fixed
content happens inside the task, on a pool worker). -/
theorem c5_worker_slot_counterexample :
    ¬ (∀ f ∈ (phase1Run ["openai", "anthropic"]
        (fun m => if m = "anthropic" then none
          else some (fun _ => Except.ok (ModelResponse.mk "ok" "m" "t" none)))
        [QRow.mk 1 "Q1" "c" "s1" "s2" 0] true).futures,
      f.model_key ≠ "anthropic") := by
  intro h
  exact h (FutureE.mk (1, 0) "anthropic" ("anthropic", "Initialization failed", none))
    (by decide) rfl

/-- Claim C5 (amended): a missing credential is scoped to its provider and
short-circuited — `query_single_model` on an uninitialized instance returns
the fixed `Initialization failed` content immediately, with no adapter call
and no full response; every result row's cell for that provider equals that
fixed content; and the cells of every other provider are unaffected (they
equal, row by row, the cells produced by a run whose instances differ only
at the failed provider).  The failed provider's tasks are still submitted to
the worker pool (each briefly occupies a slot), unlike the claim's
"without consuming a worker slot". -/
theorem c5_scoped_initialization_failure (df : List QRow) (models : List String)
    (inst inst' : Instances) (store : Bool) (p : String)
    (hp : inst p = none) (hagree : ∀ m, m ≠ p → inst m = inst' m) :
    (∀ q mk : String, query_single_model q mk none = (mk, "Initialization failed", none)) ∧
    (p ∈ models → ∀ en ∈ (query_models_parallel df models inst store).1,
      lookupA en.responses p = some "Initialization failed") ∧
    List.Forall₂ (respAgree p)
      (query_models_parallel df models inst store).1
      (query_models_parallel df models inst' store).1 := by
  refine ⟨fun q mk => rfl, ?_, ?_⟩
  · intro hmp en hen
    obtain ⟨hnd, hmem, hbind, hfut, hex⟩ := phase1Run_good models inst df store
    have hkeys_in := phase1_futures_keys df models inst store
    set p1 := phase1Run models inst df store with hp1
    have hkeys := phase2_fold_keys p1.futures (p1.rd, p1.raw) hkeys_in
    rw [query_models_parallel_fst] at hen
    obtain ⟨pr, hpr, hpr2⟩ := List.mem_map.1 hen
    have hkmem : pr.1 ∈ p1.rd.map Prod.fst := by
      rw [← hkeys]
      exact List.mem_map.2 ⟨pr, hpr, rfl⟩
    obtain ⟨f, hf, hfk, hfm⟩ := hex pr.1 hkmem p hmp
    obtain ⟨e2, he2, hsome⟩ := phase2_fold_cell pr.1 p p1.futures (p1.rd, p1.raw)
      (Or.inr ⟨f, hf, hfk, hfm⟩)
    have hndf : ((p1.futures.foldl phase2Step (p1.rd, p1.raw)).1.map Prod.fst).Nodup := by
      rw [hkeys]
      exact hnd
    have hlk : lookupA (p1.futures.foldl phase2Step (p1.rd, p1.raw)).1 pr.1 =
        some pr.2 :=
      lookupA_of_mem_nodup _ _ _ hpr hndf
    rw [hlk] at he2
    have he2' : e2 = pr.2 := (Option.some_inj.1 he2).symm
    rw [he2'] at hsome
    have hconst := phase2_fold_cell_const p "Initialization failed" p1.futures
      (p1.rd, p1.raw)
      (by
        intro g hg hgp
        obtain ⟨row, _, _, _, hres⟩ := hfut g hg
        rw [hres, hgp, hp]
        rfl)
      (by
        intro pr' hpr' v hv
        rw [(hbind pr' hpr').2.2] at hv
        simp [lookupA] at hv)
    cases hcell : lookupA pr.2.responses p with
    | none => rw [hcell] at hsome; simp at hsome
    | some v =>
      have hvc := hconst pr hpr v hcell
      rw [← hpr2, hcell, hvc]
  · have hframe1 := phase1_fold_frame models inst inst' p hagree df
      ⟨[], if store then some [] else none, []⟩
      ⟨[], if store then some [] else none, []⟩ rfl List.Forall₂.nil
    obtain ⟨hrd, hfut2⟩ := hframe1
    have hinit : List.Forall₂ (fun x y => x.1 = y.1 ∧ respAgree p x.2 y.2)
        (phase1Run models inst df store).rd (phase1Run models inst' df store).rd := by
      rw [show (phase1Run models inst df store).rd =
        (phase1Run models inst' df store).rd from hrd]
      exact forall₂_rd_refl p _
    have hfold := phase2_fold_frame p hfut2
      ((phase1Run models inst df store).rd, (phase1Run models inst df store).raw)
      ((phase1Run models inst' df store).rd, (phase1Run models inst' df store).raw)
      hinit
    rw [query_models_parallel_fst, query_models_parallel_fst]
    exact forall₂_map_snd hfold

/-- Witness for C5 (amended) at a concrete one-question run with the
`anthropic` provider uninitialized. -/
theorem c5_scoped_initialization_failure_witness :
    lookupA (Entry.mk 1 "Q1" "c" "s1" "s2" 0
        [("openai", "ok"), ("anthropic", "Initialization failed")]).responses
      "anthropic" = some "Initialization failed" :=
  (c5_scoped_initialization_failure [QRow.mk 1 "Q1" "c" "s1" "s2" 0]
    ["openai", "anthropic"]
    (fun m => if m = "anthropic" then none
      else some (fun _ => Except.ok (ModelResponse.mk "ok" "m" "t" none)))
    (fun m => if m = "anthropic" then none
      else some (fun _ => Except.ok (ModelResponse.mk "ok" "m" "t" none)))
    true "anthropic" (by rfl) (fun _ _ => rfl)).2.1 (by decide)
    (Entry.mk 1 "Q1" "c" "s1" "s2" 0
      [("openai", "ok"), ("anthropic", "Initialization failed")]) (by decide)

/-! ## Claim C10 — raw metadata store -/

theorem rawLookup3_none_of_lookupA_none (raw : Raw) (idx qid : Int) (m : String)
    (h : lookupA raw idx = none) : rawLookup3 raw idx qid m = none := by
  unfold rawLookup3
  rw [h]
  rfl

theorem scaffoldRaw_emptyLeaves (raw : Raw) (i q : Int)
    (h : rawEmptyLeaves raw) : rawEmptyLeaves (scaffoldRaw raw i q) := by
  intro idx qid m
  unfold rawLookup3 scaffoldRaw
  by_cases hi : idx = i
  · subst hi
    rw [lookupA_updA_self]
    simp only [Option.some_bind]
    by_cases hq : qid = q
    · subst hq
      rw [lookupA_updA_self]
      simp only [Option.some_bind]
      cases ho : lookupA raw idx with
      | none => simp [lookupA]
      | some inner =>
        simp only [Option.getD_some]
        cases hq2 : lookupA inner qid with
        | none => simp [lookupA]
        | some leaf =>
          simp only [Option.getD_some]
          have := h idx qid m
          unfold rawLookup3 at this
          rw [ho] at this
          simp only [Option.some_bind, hq2] at this
          simpa using this
    · rw [lookupA_updA_ne _ _ _ _ hq]
      cases ho : lookupA raw idx with
      | none => simp [lookupA]
      | some inner =>
        simp only [Option.getD_some]
        have := h idx qid m
        unfold rawLookup3 at this
        rw [ho] at this
        simpa using this
  · rw [lookupA_updA_ne _ _ _ _ hi]
    have := h idx qid m
    unfold rawLookup3 at this
    exact this

theorem scaffoldRaw_scaffolded_self (raw : Raw) (i q : Int) :
    rawScaffolded (scaffoldRaw raw i q) i q := by
  unfold rawScaffolded scaffoldRaw
  refine ⟨_, lookupA_updA_self _ _ _, ?_⟩
  rw [lookupA_updA_self]
  rfl

theorem scaffoldRaw_scaffolded_mono (raw : Raw) (i q idx qid : Int)
    (h : rawScaffolded raw idx qid) : rawScaffolded (scaffoldRaw raw i q) idx qid := by
  obtain ⟨inner, hiA, hiB⟩ := h
  unfold rawScaffolded scaffoldRaw
  by_cases hi : idx = i
  · subst hi
    refine ⟨_, lookupA_updA_self _ _ _, ?_⟩
    rw [hiA]
    simp only [Option.getD_some]
    by_cases hq : qid = q
    · subst hq
      rw [lookupA_updA_self]
      rfl
    · rw [lookupA_updA_ne _ _ _ _ hq]
      exact hiB
  · rw [lookupA_updA_ne _ _ _ _ hi]
    exact ⟨inner, hiA, hiB⟩

theorem phase1_fold_raw (models : List String) (inst : Instances) :
    ∀ (df : List QRow) (st : P1State) (raw0 : Raw), st.raw = some raw0 →
      ∃ raw1, (df.foldl (phase1Step models inst) st).raw = some raw1 ∧
        (rawEmptyLeaves raw0 → rawEmptyLeaves raw1) ∧
        (∀ i q : Int, rawScaffolded raw0 i q → rawScaffolded raw1 i q) ∧
        (∀ row ∈ df, rawScaffolded raw1 row.index row.query_id) := by
  intro df
  induction df with
  | nil =>
    intro st raw0 h
    exact ⟨raw0, h, fun x => x, fun _ _ x => x, by simp⟩
  | cons row rest ih =>
    intro st raw0 h
    have hstep : (phase1Step models inst st row).raw =
        some (scaffoldRaw raw0 row.index row.query_id) := by
      simp [phase1Step, h]
    obtain ⟨raw1, h1, h2, h3, h4⟩ :=
      ih (phase1Step models inst st row) (scaffoldRaw raw0 row.index row.query_id) hstep
    refine ⟨raw1, by simpa using h1, ?_, ?_, ?_⟩
    · intro he
      exact h2 (scaffoldRaw_emptyLeaves raw0 _ _ he)
    · intro i q hs
      exact h3 i q (scaffoldRaw_scaffolded_mono raw0 _ _ _ _ hs)
    · intro r hr
      rcases List.mem_cons.1 hr with hr | hr
      · subst hr
        exact h3 r.index r.query_id (scaffoldRaw_scaffolded_self raw0 _ _)
      · exact h4 r hr

theorem rawStore_lookup3_ne (raw : Raw) (i q : Int) (mk : String) (d : RespData)
    (idx qid : Int) (m : String) (hne : ¬(idx = i ∧ qid = q ∧ m = mk)) :
    rawLookup3 (rawStore raw i q mk d) idx qid m = rawLookup3 raw idx qid m := by
  unfold rawLookup3 rawStore
  by_cases hi : idx = i
  · subst hi
    rw [lookupA_updA_self]
    simp only [Option.some_bind]
    by_cases hq : qid = q
    · subst hq
      rw [lookupA_updA_self]
      simp only [Option.some_bind]
      have hm : m ≠ mk := fun hm => hne ⟨rfl, rfl, hm⟩
      rw [lookupA_updA_ne _ _ _ _ hm]
      cases ho : lookupA raw idx with
      | none => simp [lookupA]
      | some inner =>
        simp only [Option.getD_some, Option.some_bind]
        cases hq2 : lookupA inner qid with
        | none => simp [lookupA]
        | some leaf => simp
    · rw [lookupA_updA_ne _ _ _ _ hq]
      cases ho : lookupA raw idx with
      | none => simp [lookupA]
      | some inner => simp
  · rw [lookupA_updA_ne _ _ _ _ hi]

theorem rawStore_scaffolded_mono (raw : Raw) (i q : Int) (mk : String) (d : RespData)
    (idx qid : Int) (h : rawScaffolded raw idx qid) :
    rawScaffolded (rawStore raw i q mk d) idx qid := by
  obtain ⟨inner, hiA, hiB⟩ := h
  unfold rawScaffolded rawStore
  by_cases hi : idx = i
  · subst hi
    refine ⟨_, lookupA_updA_self _ _ _, ?_⟩
    rw [hiA]
    simp only [Option.getD_some]
    by_cases hq : qid = q
    · subst hq
      rw [lookupA_updA_self]
      rfl
    · rw [lookupA_updA_ne _ _ _ _ hq]
      exact hiB
  · rw [lookupA_updA_ne _ _ _ _ hi]
    exact ⟨inner, hiA, hiB⟩

theorem phase2_fold_raw (idx qid : Int) (m : String) :
    ∀ (futures : List FutureE) (st : List ((Int × Int) × Entry) × Option Raw)
      (raw0 : Raw), st.2 = some raw0 →
      ∃ raw1, (futures.foldl phase2Step st).2 = some raw1 ∧
        (∀ i q : Int, rawScaffolded raw0 i q → rawScaffolded raw1 i q) ∧
        ((∀ f ∈ futures, f.key = (idx, qid) → f.model_key = m →
            f.result.2.2 = none) →
          rawLookup3 raw0 idx qid m = none → rawLookup3 raw1 idx qid m = none) := by
  intro futures
  induction futures with
  | nil =>
    intro st raw0 h
    exact ⟨raw0, h, fun _ _ x => x, fun _ x => x⟩
  | cons f fs ih =>
    intro st raw0 h
    cases hfull : f.result.2.2 with
    | none =>
      have hstep : (phase2Step st f).2 = some raw0 := by
        simp only [phase2Step, hfull, h]
      obtain ⟨raw1, h1, h2, h3⟩ := ih (phase2Step st f) raw0 hstep
      refine ⟨raw1, by simpa using h1, h2, ?_⟩
      intro hall hnone
      exact h3 (fun g hg => hall g (List.mem_cons_of_mem f hg)) hnone
    | some fr =>
      have hstep : (phase2Step st f).2 =
          some (rawStore raw0 f.key.1 f.key.2 f.model_key (mkRespData fr)) := by
        simp only [phase2Step, hfull, h]
      obtain ⟨raw1, h1, h2, h3⟩ :=
        ih (phase2Step st f) (rawStore raw0 f.key.1 f.key.2 f.model_key (mkRespData fr))
          hstep
      refine ⟨raw1, by simpa using h1, ?_, ?_⟩
      · intro i q hs
        exact h2 i q (rawStore_scaffolded_mono raw0 _ _ _ _ _ _ hs)
      · intro hall hnone
        apply h3 (fun g hg => hall g (List.mem_cons_of_mem f hg))
        have hne : ¬(idx = f.key.1 ∧ qid = f.key.2 ∧ m = f.model_key) := by
          rintro ⟨hA, hB, hC⟩
          have : f.key = (idx, qid) := by
            rw [hA, hB]
          have hcontra := hall f (List.mem_cons_self f fs) this hC.symm
          rw [hfull] at hcontra
          exact Option.noConfusion hcontra
        rw [rawStore_lookup3_ne raw0 _ _ _ _ _ _ _ hne]
        exact hnone

/-- Claim C10: the raw metadata store records only successful calls — after
a completed run with raw storage on, every input row has its (possibly
empty) `raw[index][query_id]` scaffolding dict, but whenever every task for
a given `(index, query_id, provider)` returns no full response (an error
string or the initialization short-circuit), no `raw[index][query_id]
[provider]` entry exists, so error cells of the result table are not
mirrored in the raw store. -/
theorem c10_raw_store_success_only (df : List QRow) (models : List String)
    (inst : Instances) :
    ∃ raw : Raw, (query_models_parallel df models inst true).2 = some raw ∧
      (∀ row ∈ df, rawScaffolded raw row.index row.query_id) ∧
      (∀ (idx qid : Int) (m : String),
        (∀ row ∈ df, (row.index, row.query_id) = (idx, qid) →
          (query_single_model row.question m (inst m)).2.2 = none) →
        rawLookup3 raw idx qid m = none) := by
  obtain ⟨hnd, hmem, hbind, hfut, hex⟩ := phase1Run_good models inst df true
  have hinitraw : (⟨[], if true then some [] else none, []⟩ : P1State).raw = some [] := rfl
  obtain ⟨raw1, hraw1, hempty1, hscaf1, hrows1⟩ :=
    phase1_fold_raw models inst df ⟨[], if true then some [] else none, []⟩ [] hinitraw
  have hraw1' : (phase1Run models inst df true).raw = some raw1 := hraw1
  have hempty : rawEmptyLeaves raw1 := by
    apply hempty1
    intro i q mm
    rfl
  set p1 := phase1Run models inst df true with hp1
  have hsnd : (query_models_parallel df models inst true).2 =
      (p1.futures.foldl phase2Step (p1.rd, p1.raw)).2 := rfl
  obtain ⟨rawF, hrawF, hscafF, _⟩ :=
    phase2_fold_raw 0 0 "" p1.futures (p1.rd, p1.raw) raw1 hraw1'
  refine ⟨rawF, by rw [hsnd]; exact hrawF, ?_, ?_⟩
  · intro row hrow
    exact hscafF row.index row.query_id (hrows1 row hrow)
  · intro idx qid m hall
    obtain ⟨rawF', hrawF', _, hnoneF⟩ :=
      phase2_fold_raw idx qid m p1.futures (p1.rd, p1.raw) raw1 hraw1'
    have heq : rawF' = rawF := by
      rw [hrawF] at hrawF'
      exact (Option.some_inj.1 hrawF').symm
    rw [← heq]
    apply hnoneF
    · intro f hf hkey hmk
      obtain ⟨row, hrow, hk, _, hres⟩ := hfut f hf
      have hrowkey : (row.index, row.query_id) = (idx, qid) := by
        rw [← hk, hkey]
      have := hall row hrow hrowkey
      rw [hres, hmk]
      exact this
    · exact hempty idx qid m

/-- Witness for C10 on a concrete run where the `anthropic` call always
raises: the failed provider's raw entry is absent. -/
theorem c10_raw_store_success_only_witness :
    ∃ raw : Raw, (query_models_parallel [QRow.mk 1 "Q1" "c" "s1" "s2" 0]
        ["openai", "anthropic"]
        (fun m => if m = "anthropic" then none
          else some (fun _ => Except.ok (ModelResponse.mk "ok" "m" "t" none)))
        true).2 = some raw ∧
      rawScaffolded raw 1 0 ∧ rawLookup3 raw 1 0 "anthropic" = none := by
  obtain ⟨raw, h1, h2, h3⟩ := c10_raw_store_success_only
    [QRow.mk 1 "Q1" "c" "s1" "s2" 0] ["openai", "anthropic"]
    (fun m => if m = "anthropic" then none
      else some (fun _ => Except.ok (ModelResponse.mk "ok" "m" "t" none)))
  refine ⟨raw, h1, h2 (QRow.mk 1 "Q1" "c" "s1" "s2" 0) (by decide), ?_⟩
  apply h3
  intro row hrow _
  have hr : row = QRow.mk 1 "Q1" "c" "s1" "s2" 0 := by
    simpa using hrow
  subst hr
  rfl

/-! ## Claim C4 — strict per-provider serialization -/

theorem lookupA_eraseKey_self {α : Type} (L : String) :
    ∀ l : List (String × α), lookupA (eraseKey l L) L = none := by
  intro l
  induction l with
  | nil => rfl
  | cons hd tl ih =>
    obtain ⟨k, v⟩ := hd
    by_cases hk : k = L
    · subst hk
      have he : eraseKey ((k, v) :: tl) k = eraseKey tl k := by
        simp [eraseKey, List.filter_cons]
      rw [he]
      exact ih
    · have he : eraseKey ((k, v) :: tl) L = (k, v) :: eraseKey tl L := by
        simp [eraseKey, List.filter_cons, hk]
      rw [he]
      have hLk : ¬ L = k := fun h => hk h.symm
      simp only [lookupA, if_neg hLk]
      exact ih

theorem lookupA_eraseKey_ne {α : Type} (L k : String) (hne : k ≠ L) :
    ∀ l : List (String × α), lookupA (eraseKey l L) k = lookupA l k := by
  intro l
  induction l with
  | nil => rfl
  | cons hd tl ih =>
    obtain ⟨k1, v⟩ := hd
    by_cases hk : k1 = L
    · subst hk
      have he : eraseKey ((k1, v) :: tl) k1 = eraseKey tl k1 := by
        simp [eraseKey, List.filter_cons]
      rw [he]
      have : lookupA ((k1, v) :: tl) k = lookupA tl k := by
        simp [lookupA, hne]
      rw [this]
      exact ih
    · have he : eraseKey ((k1, v) :: tl) L = (k1, v) :: eraseKey tl L := by
        simp [eraseKey, List.filter_cons, hk]
      rw [he]
      by_cases hkk : k = k1
      · subst hkk
        simp [lookupA]
      · have h1 : lookupA ((k, v) :: eraseKey tl L) k = some v := by
          simp [lookupA]
        simp only [lookupA, if_neg hkk]
        exact ih

theorem get?_set_ne' {α : Type} (a : α) :
    ∀ (l : List α) (i j : Nat), i ≠ j → (l.set i a).get? j = l.get? j := by
  intro l
  induction l with
  | nil => intro i j _; simp
  | cons x t ih =>
    intro i j hij
    cases i with
    | zero =>
      cases j with
      | zero => exact absurd rfl hij
      | succ j2 => simp [List.set]
    | succ i2 =>
      cases j with
      | zero => simp [List.set]
      | succ j2 =>
        simp only [List.set, List.get?]
        exact ih i2 j2 (fun h => hij (by rw [h]))

theorem get?_set_self' {α : Type} (a b : α) :
    ∀ (l : List α) (i : Nat), l.get? i = some b → (l.set i a).get? i = some a := by
  intro l
  induction l with
  | nil => intro i h; simp at h
  | cons x t ih =>
    intro i h
    cases i with
    | zero => simp [List.set]
    | succ i2 =>
      simp only [List.set, List.get?] at *
      exact ih i2 h

theorem taskProgram_github : taskProgram "github" =
    [PAction.acquire "github", PAction.callA, PAction.releaseA "github"] := rfl

theorem taskProgram_anthropic : taskProgram "anthropic" =
    [PAction.acquire "anthropic", PAction.sleepA (6 / 5), PAction.callA,
      PAction.releaseA "anthropic"] := rfl

theorem program_head_acquire (m : String) (hser : serializedP m) :
    ∃ rest, taskProgram m = PAction.acquire m :: rest := by
  rcases hser with h | h <;> subst h
  · exact ⟨_, taskProgram_github⟩
  · exact ⟨_, taskProgram_anthropic⟩

theorem acquire_suffix_eq (m L : String) (rest : List PAction)
    (hser : serializedP m) (h : (PAction.acquire L :: rest) <:+ taskProgram m) :
    L = m := by
  have hmem : (PAction.acquire L :: rest) ∈ (taskProgram m).tails :=
    (List.mem_tails _ _).2 h
  rcases hser with hm | hm <;> subst hm
  · rw [taskProgram_github] at hmem
    simp only [List.tails, List.mem_cons, List.mem_singleton] at hmem
    rcases hmem with h1 | h1 | h1 | h1 | h1 <;> simp_all
  · rw [taskProgram_anthropic] at hmem
    simp only [List.tails, List.mem_cons, List.mem_singleton] at hmem
    rcases hmem with h1 | h1 | h1 | h1 | h1 | h1 <;> simp_all

theorem release_suffix_nil (m L : String) (rest : List PAction)
    (hser : serializedP m) (h : (PAction.releaseA L :: rest) <:+ taskProgram m) :
    rest = [] := by
  have hmem : (PAction.releaseA L :: rest) ∈ (taskProgram m).tails :=
    (List.mem_tails _ _).2 h
  rcases hser with hm | hm <;> subst hm
  · rw [taskProgram_github] at hmem
    simp only [List.tails, List.mem_cons, List.mem_singleton] at hmem
    rcases hmem with h1 | h1 | h1 | h1 | h1 <;> simp_all
  · rw [taskProgram_anthropic] at hmem
    simp only [List.tails, List.mem_cons, List.mem_singleton] at hmem
    rcases hmem with h1 | h1 | h1 | h1 | h1 | h1 <;> simp_all

theorem sysInv (models : List String) :
    ∀ s, Reach models s →
      (∀ (i : Nat) (m : String) (rem : List PAction),
        s.tasks.get? i = some (m, rem) → rem <:+ taskProgram m) ∧
      (∀ (i : Nat) (m : String) (rem : List PAction),
        s.tasks.get? i = some (m, rem) → serializedP m →
        rem ≠ taskProgram m → rem ≠ [] → lookupA s.owner m = some i) := by
  intro s h
  induction h with
  | refl =>
    constructor
    · intro i m rem hi
      rw [show (initSys models).tasks = models.map (fun m => (m, taskProgram m))
        from rfl, List.get?_map] at hi
      cases hm : models.get? i with
      | none => rw [hm] at hi; exact Option.noConfusion hi
      | some m0 =>
        rw [hm] at hi
        have hi2 : some (m0, taskProgram m0) = some (m, rem) := hi
        injection hi2 with hi3
        injection hi3 with ha hb
        rw [← ha, ← hb]
    · intro i m rem hi _ hne _
      rw [show (initSys models).tasks = models.map (fun m => (m, taskProgram m))
        from rfl, List.get?_map] at hi
      cases hm : models.get? i with
      | none => rw [hm] at hi; exact Option.noConfusion hi
      | some m0 =>
        rw [hm] at hi
        have hi2 : some (m0, taskProgram m0) = some (m, rem) := hi
        injection hi2 with hi3
        injection hi3 with ha hb
        exact absurd (ha ▸ hb.symm) hne
  | @tail s2 s3 _hpre hstep ih =>
    obtain ⟨hS, hC⟩ := ih
    cases hstep with
    | acq i m L rest htask hfree =>
      constructor
      · intro j m' rem' hj
        by_cases hij : i = j
        · subst hij
          rw [get?_set_self' _ _ _ _ htask] at hj
          injection hj with hj2
          injection hj2 with ha hb
          have hsuff := hS i m _ htask
          rw [← ha, ← hb]
          exact (List.suffix_cons _ _).trans hsuff
        · rw [get?_set_ne' _ _ _ _ hij] at hj
          exact hS j m' rem' hj
      · intro j m' rem' hj hser hne hnil
        by_cases hij : i = j
        · subst hij
          rw [get?_set_self' _ _ _ _ htask] at hj
          injection hj with hj2
          injection hj2 with ha hb
          have hsuff := hS i m _ htask
          have hLm : L = m := acquire_suffix_eq m L rest (ha ▸ hser) hsuff
          show lookupA ((L, i) :: s2.owner) m' = some i
          rw [← ha, ← hLm]
          simp [lookupA]
        · rw [get?_set_ne' _ _ _ _ hij] at hj
          have hown := hC j m' rem' hj hser hne hnil
          show lookupA ((L, i) :: s2.owner) m' = some j
          by_cases hmL : m' = L
          · rw [hmL] at hown
            rw [hown] at hfree
            exact Option.noConfusion hfree
          · simp only [lookupA, if_neg hmL]
            exact hown
    | slp i m q rest htask =>
      constructor
      · intro j m' rem' hj
        by_cases hij : i = j
        · subst hij
          rw [get?_set_self' _ _ _ _ htask] at hj
          injection hj with hj2
          injection hj2 with ha hb
          have hsuff := hS i m _ htask
          rw [← ha, ← hb]
          exact (List.suffix_cons _ _).trans hsuff
        · rw [get?_set_ne' _ _ _ _ hij] at hj
          exact hS j m' rem' hj
      · intro j m' rem' hj hser hne hnil
        by_cases hij : i = j
        · subst hij
          rw [get?_set_self' _ _ _ _ htask] at hj
          injection hj with hj2
          injection hj2 with ha hb
          have hold : PAction.sleepA q :: rest ≠ taskProgram m := by
            obtain ⟨r0, hr0⟩ := program_head_acquire m (ha ▸ hser)
            rw [hr0]
            intro hcontra
            injection hcontra with hcontra2
            exact PAction.noConfusion hcontra2
          have hown := hC i m _ htask (ha ▸ hser) hold (by simp)
          rw [← ha]
          exact hb ▸ hown
        · rw [get?_set_ne' _ _ _ _ hij] at hj
          exact hC j m' rem' hj hser hne hnil
    | cal i m rest htask =>
      constructor
      · intro j m' rem' hj
        by_cases hij : i = j
        · subst hij
          rw [get?_set_self' _ _ _ _ htask] at hj
          injection hj with hj2
          injection hj2 with ha hb
          have hsuff := hS i m _ htask
          rw [← ha, ← hb]
          exact (List.suffix_cons _ _).trans hsuff
        · rw [get?_set_ne' _ _ _ _ hij] at hj
          exact hS j m' rem' hj
      · intro j m' rem' hj hser hne hnil
        by_cases hij : i = j
        · subst hij
          rw [get?_set_self' _ _ _ _ htask] at hj
          injection hj with hj2
          injection hj2 with ha hb
          have hold : PAction.callA :: rest ≠ taskProgram m := by
            obtain ⟨r0, hr0⟩ := program_head_acquire m (ha ▸ hser)
            rw [hr0]
            intro hcontra
            injection hcontra with hcontra2
            exact PAction.noConfusion hcontra2
          have hown := hC i m _ htask (ha ▸ hser) hold (by simp)
          rw [← ha]
          exact hb ▸ hown
        · rw [get?_set_ne' _ _ _ _ hij] at hj
          exact hC j m' rem' hj hser hne hnil
    | rel i m L rest htask hown0 =>
      constructor
      · intro j m' rem' hj
        by_cases hij : i = j
        · subst hij
          rw [get?_set_self' _ _ _ _ htask] at hj
          injection hj with hj2
          injection hj2 with ha hb
          have hsuff := hS i m _ htask
          rw [← ha, ← hb]
          exact (List.suffix_cons _ _).trans hsuff
        · rw [get?_set_ne' _ _ _ _ hij] at hj
          exact hS j m' rem' hj
      · intro j m' rem' hj hser hne hnil
        by_cases hij : i = j
        · subst hij
          rw [get?_set_self' _ _ _ _ htask] at hj
          injection hj with hj2
          injection hj2 with ha hb
          have hsuff := hS i m _ htask
          have hrest : rest = [] := release_suffix_nil m L rest (ha ▸ hser) hsuff
          exact absurd (hb.symm.trans hrest) hnil
        · rw [get?_set_ne' _ _ _ _ hij] at hj
          have hownj := hC j m' rem' hj hser hne hnil
          show lookupA (eraseKey s2.owner L) m' = some j
          by_cases hmL : m' = L
          · rw [hmL] at hownj
            rw [hownj] at hown0
            injection hown0 with hcontra
            exact absurd hcontra.symm hij
          · rw [lookupA_eraseKey_ne L m' hmL]
            exact hownj

/-- Claim C4: for the two strictly-serialized providers, no two tasks of the
same provider are ever at their call simultaneously in any reachable
interleaving, regardless of free worker-pool slots; and the Anthropic task
additionally runs — in program order — acquire the provider lock, sleep the
1.2-unit minimum spacing, perform the (retried) call, release. -/
theorem c4_strict_serialization :
    (∀ (models : List String) (s : SysState) (i j : Nat) (p : String)
        (r1 r2 : List PAction),
      Reach models s →
      s.tasks.get? i = some (p, PAction.callA :: r1) →
      s.tasks.get? j = some (p, PAction.callA :: r2) →
      serializedP p → i = j) ∧
    taskProgram "anthropic" = [PAction.acquire "anthropic", PAction.sleepA (6 / 5),
      PAction.callA, PAction.releaseA "anthropic"] := by
  constructor
  · intro models s i j p r1 r2 hreach hi hj hser
    obtain ⟨hS, hC⟩ := sysInv models s hreach
    have hni : PAction.callA :: r1 ≠ taskProgram p := by
      obtain ⟨r0, hr0⟩ := program_head_acquire p hser
      rw [hr0]
      intro hcontra
      injection hcontra with hcontra2
      exact PAction.noConfusion hcontra2
    have hnj : PAction.callA :: r2 ≠ taskProgram p := by
      obtain ⟨r0, hr0⟩ := program_head_acquire p hser
      rw [hr0]
      intro hcontra
      injection hcontra with hcontra2
      exact PAction.noConfusion hcontra2
    have h1 := hC i p _ hi hser hni (by simp)
    have h2 := hC j p _ hj hser hnj (by simp)
    rw [h1] at h2
    exact Option.some_inj.1 h2
  · rfl

/-- Witness for C4: the anthropic action order, and mutual exclusion applied
in a concrete reachable state where one github task holds the lock at its
call. -/
theorem c4_strict_serialization_witness :
    taskProgram "anthropic" = [PAction.acquire "anthropic", PAction.sleepA (6 / 5),
      PAction.callA, PAction.releaseA "anthropic"] ∧ (0 : Nat) = 0 :=
  ⟨c4_strict_serialization.2,
    c4_strict_serialization.1 ["github"]
      ⟨[("github", [PAction.callA, PAction.releaseA "github"])], [("github", 0)]⟩
      0 0 "github" [PAction.releaseA "github"] [PAction.releaseA "github"]
      (Relation.ReflTransGen.single
        (SysStep.acq (initSys ["github"]) 0 "github" "github"
          [PAction.callA, PAction.releaseA "github"] rfl rfl))
      rfl rfl (Or.inl rfl)⟩

/-- Witness for C1 on a concrete expanded input with a repeated key. -/
theorem c1_row_identity_witness :
    ((query_models_parallel
        [QRow.mk 1 "Q1" "c" "s1" "s2" 1, QRow.mk 1 "Q1" "c" "s1" "s2" 2,
          QRow.mk 2 "Q2" "c" "s1" "s2" 1]
        ["openai"] (fun _ => none) true).1.map
      (fun e => (e.index, e.query_id))).Nodup :=
  (c1_row_identity
    [QRow.mk 1 "Q1" "c" "s1" "s2" 1, QRow.mk 1 "Q1" "c" "s1" "s2" 2,
      QRow.mk 2 "Q2" "c" "s1" "s2" 1]
    ["openai"] (fun _ => none) true).1

/-- Witness for C8: the concrete selected/unselected scenario rows. -/
theorem c8_error_detection_filter_witness :
    (⟨1, 1, [("anthropic_response", "RateLimitError: too many requests")]⟩ : CRow) ∈
      extract_failed_queries
        [⟨1, 1, [("anthropic_response", "RateLimitError: too many requests")]⟩,
          ⟨2, 1, [("anthropic_response", "The heart pumps blood.")]⟩] "anthropic" :=
  c8_error_detection_filter.2.1
